import Mathlib

/-!
Verification of the span-processing and export pipeline of the otel-demo
repository (`src/otel_demo.py`, `src/spanexporter_gemini.py`).

The heart of the embedding is a faithful model of Python's `re.sub` as used by
`AsyncRedactingExporter`: a backtracking regular-expression engine over an
abstract syntax of the three concrete patterns

  * `\b[A-Za-z0-9._%+-]+@[A-Za-z0-9.-]+\.[A-Z|a-z]{2,7}\b`   (emails)
  * `\b(?:\d[ -]*?){13,16}\b`                                (credit cards)
  * `\b\d{3}-\d{2}-\d{4}\b`                                  (SSNs)

`matchSeq` enumerates, in Python's backtracking preference order (greedy
repetitions try a further iteration first, lazy ones try stopping first), every
way a pattern can match a prefix of the input; the head of that list is exactly
the match Python's engine commits to.  `pysub` then mirrors `re.sub`: scan left
to right, replace the leftmost match, continue after it.  Character classes are
modelled at ASCII precision (`\d`, `\b` use ASCII digits/word characters, which
is exact on all inputs the repository manipulates).
-/

namespace OtelDemo

/-- ASCII word character, as used by `\b` in the source's patterns. -/
def isWordChar (c : Char) : Bool :=
  c.isAlpha || c.isDigit || c == '_'

/-- Wordness of an optional character; the absence of a character (string edge)
counts as non-word, matching `\b` at string boundaries. -/
def isWordO : Option Char → Bool
  | none => false
  | some c => isWordChar c

/-- One element of a compiled regular expression:
a single character from a class, a word boundary `\b`, or a counted repetition
`{lo,hi}` (`hi = none` meaning unbounded) of a sub-pattern whose every iteration
starts by consuming one character from class `hd` (true of every repetition body
in the source's three patterns). -/
inductive Atom where
  | cls (p : Char → Bool)
  | wb
  | rep (greedy : Bool) (lo : Nat) (hi : Option Nat) (hd : Char → Bool) (body : List Atom)

/-- Add one consumed character to every candidate result. -/
def bump (l : List (Nat × Option Char)) : List (Nat × Option Char) :=
  l.map (fun np => (np.1 + 1, np.2))

/-- One step of the backtracking matcher, parametric in `next`, the matcher for
the tail of the input string.  `hc` is the head character of the input (if any),
`prev` the character immediately before the current position.  Returns every
`(consumed, last character consumed)` pair, in Python's preference order. -/
def goM (next : Option Char → List Atom → List (Nat × Option Char)) (hc : Option Char) :
    List Atom → Option Char → List (Nat × Option Char)
  | [], prev => [(0, prev)]
  | .wb :: rest, prev =>
    if isWordO prev != isWordO hc then goM next hc rest prev else []
  | .cls p :: rest, _ =>
    match hc with
    | none => []
    | some c => if p c then bump (next (some c) rest) else []
  | .rep g (l+1) hi hd body :: rest, _ =>
    (match hc with
     | none => []
     | some c =>
       if hd c then bump (next (some c) (body ++ .rep g l (hi.map (· - 1)) hd body :: rest))
       else [])
  | .rep _ 0 (some 0) _ _ :: rest, prev => goM next hc rest prev
  | .rep g 0 none hd body :: rest, prev =>
    let more := match hc with
      | none => []
      | some c =>
        if hd c then bump (next (some c) (body ++ .rep g 0 none hd body :: rest)) else []
    let stop := goM next hc rest prev
    if g then more ++ stop else stop ++ more
  | .rep g 0 (some (k+1)) hd body :: rest, prev =>
    let more := match hc with
      | none => []
      | some c =>
        if hd c then bump (next (some c) (body ++ .rep g 0 (some k) hd body :: rest)) else []
    let stop := goM next hc rest prev
    if g then more ++ stop else stop ++ more

/-- All ways (in preference order) the pattern `atoms` can match a prefix of
`s`, given that `prev` is the character just before `s`.  Each result is the
number of characters consumed together with the last character consumed. -/
def matchSeq : List Char → Option Char → List Atom → List (Nat × Option Char)
  | [], prev, atoms => goM (fun _ _ => []) none atoms prev
  | c :: s, prev, atoms => goM (fun c2 a => matchSeq s c2 a) (some c) atoms prev

/-- The length of the match Python's backtracking engine finds at the current
position (the first candidate in preference order), if any. -/
def matchHere (pat : List Atom) (prev : Option Char) (s : List Char) : Option Nat :=
  (matchSeq s prev pat).head?.map (·.1)

/-- The scan of `re.sub`: at each position try to match; on failure copy one
character and move on; on a match emit the replacement and continue right after
the match (an empty match also copies the following character).  `prev` tracks
the character of the *original* string before the current position, as Python
does.  The fuel argument is an upper bound on the number of scan steps; each
step consumes at least one input character, so `s.length + 1` always suffices. -/
def subAux (pat : List Atom) (repl : List Char) : Nat → Option Char → List Char → List Char
  | 0, _, s => s
  | f+1, prev, s =>
    match matchHere pat prev s with
    | none =>
      match s with
      | [] => []
      | c :: s2 => c :: subAux pat repl f (some c) s2
    | some 0 =>
      match s with
      | [] => repl
      | c :: s2 => repl ++ c :: subAux pat repl f (some c) s2
    | some (n+1) =>
      repl ++ subAux pat repl f (s.take (n+1)).getLast? (s.drop (n+1))

/-- `pattern.sub(repl, s)` of Python's `re` module. -/
def pysub (pat : List Atom) (repl : List Char) (s : List Char) : List Char :=
  subAux pat repl (s.length + 1) none s

/-! The three character classes and patterns of `AsyncRedactingExporter.__init__`
(`src/spanexporter_gemini.py`, lines 34-38), element by element. -/

/-- `[A-Za-z0-9._%+-]` -/
def emailLocalClass (c : Char) : Bool :=
  c.isAlpha || c.isDigit || c == '.' || c == '_' || c == '%' || c == '+' || c == '-'

/-- `[A-Za-z0-9.-]` -/
def emailDomainClass (c : Char) : Bool :=
  c.isAlpha || c.isDigit || c == '.' || c == '-'

/-- `[A-Z|a-z]` (note: this class of the source contains the literal `|`). -/
def tldClass (c : Char) : Bool :=
  c.isUpper || c == '|' || c.isLower

/-- `\d` -/
def digitClass (c : Char) : Bool := c.isDigit

/-- `[ -]` -/
def sepClass (c : Char) : Bool := c == ' ' || c == '-'

/-- `\b[A-Za-z0-9._%+-]+@[A-Za-z0-9.-]+\.[A-Z|a-z]{2,7}\b` -/
def emailPattern : List Atom :=
  [.wb, .rep true 1 none emailLocalClass [], .cls (· == '@'),
   .rep true 1 none emailDomainClass [], .cls (· == '.'),
   .rep true 2 (some 7) tldClass [], .wb]

/-- `\b(?:\d[ -]*?){13,16}\b` -/
def cardPattern : List Atom :=
  [.wb, .rep true 13 (some 16) digitClass [.rep false 0 none sepClass []], .wb]

/-- `\b\d{3}-\d{2}-\d{4}\b` -/
def ssnPattern : List Atom :=
  [.wb, .rep true 3 (some 3) digitClass [], .cls (· == '-'),
   .rep true 2 (some 2) digitClass [], .cls (· == '-'),
   .rep true 4 (some 4) digitClass [], .wb]

/-- The constant replacement marker of `AsyncRedactingExporter.export`. -/
def redactedPII : List Char := "[REDACTED PII]".data

/-- The cumulative effect of the loop `for pattern in self.patterns: value =
pattern.sub("[REDACTED PII]", value)` on one string value
(`src/spanexporter_gemini.py`, lines 53-54): emails first, then cards, then SSNs. -/
def scrubChars (s : List Char) : List Char :=
  pysub ssnPattern redactedPII (pysub cardPattern redactedPII (pysub emailPattern redactedPII s))

/-- `scrubChars` on `String`. -/
def scrub (v : String) : String :=
  String.mk (scrubChars v.data)

/-- `true` when some position of `s` (with `prev` the character before it)
carries a match of `pat`: the string contains a `pat`-shaped substring. -/
def existsMatch (pat : List Atom) : Option Char → List Char → Bool
  | prev, s =>
    (matchHere pat prev s).isSome ||
      match s with
      | [] => false
      | c :: s2 => existsMatch pat (some c) s2

/-! ## Data model: attribute values, attribute maps, spans -/

/-- A span attribute value: Python's `str | int | float | bool` union.
Floats are carried opaquely (the pipeline never computes with them; the
exporter only tests `isinstance(value, str)`). -/
inductive AttrValue where
  | str (s : String)
  | int (n : Int)
  | float (x : ℚ)
  | bool (b : Bool)
deriving DecidableEq

/-- A Python dict as an insertion-ordered association list with unique keys
(uniqueness is a fact about dicts, stated as a hypothesis where a proof needs it). -/
abbrev AttrMap := List (String × AttrValue)

/-- Key lookup in an attribute map (first binding wins, as in a dict where keys
are unique). -/
def lookupA : AttrMap → String → Option AttrValue
  | [], _ => none
  | (k, v) :: m, key => if k == key then some v else lookupA m key

/-- `dict.__setitem__`: an existing key is updated in place (keeping its
position), a new key is appended at the end. -/
def setAttr : AttrMap → String → AttrValue → AttrMap
  | [], key, v => [(key, v)]
  | (k, w) :: m, key, v =>
    if k == key then (k, v) :: m else (k, w) :: setAttr m key v

/-- The span context: the identifiers `get_span_context()` exposes. -/
structure SpanContext where
  trace_id : Nat
  span_id : Nat
deriving DecidableEq

/-- The slice of an SDK span the pipeline reads and writes: its context, its
optional parent context, and its `_attributes` dict (`none` models a span whose
`_attributes` is absent or `None`, as probed by
`getattr(span, "_attributes", None)`). -/
structure Span where
  name : String
  ctx : SpanContext
  parent : Option SpanContext
  attrs : Option AttrMap
deriving DecidableEq

/-- `span.set_attribute(key, value)`. -/
def Span.set_attribute (sp : Span) (key : String) (v : AttrValue) : Span :=
  { sp with attrs := some (setAttr (sp.attrs.getD []) key v) }

/-- The attribute value a span currently carries under `key`, if any. -/
def attrVal (sp : Span) (key : String) : Option AttrValue :=
  lookupA (sp.attrs.getD []) key

/-- Modelled from the spec: `format_trace_id` / `format_span_id` of the
OpenTelemetry API (not part of this repository) render an id as a fixed-width
lowercase-hex string ("formatted trace id / span id"); width 32 for the 128-bit
trace id, width 16 for the 64-bit span id. -/
def formatHex (width : Nat) (n : Nat) : String :=
  String.mk (List.replicate (width - (Nat.toDigits 16 n).length) '0' ++ Nat.toDigits 16 n)

/-- `format_trace_id` (32 hex digits). -/
def format_trace_id (t : Nat) : String := formatHex 32 t

/-- `format_span_id` (16 hex digits). -/
def format_span_id (s : Nat) : String := formatHex 16 s

/-! ## The synchronous processors (`src/otel_demo.py` lines 31-47,
`src/spanexporter_gemini.py` lines 17-25) -/

/-- `SecurityAndContextProcessor.on_start`: write the formatted trace and span
ids, and the formatted parent span id when the span has a parent. -/
def SecurityAndContextProcessor.on_start (sp : Span) : Span :=
  let sp1 := sp.set_attribute "meta.trace_id" (.str (format_trace_id sp.ctx.trace_id))
  let sp2 := sp1.set_attribute "meta.span_id" (.str (format_span_id sp1.ctx.span_id))
  match sp2.parent with
  | some p => sp2.set_attribute "meta.parent_id" (.str (format_span_id p.span_id))
  | none => sp2

/-- `ContextInjectionProcessor.on_start` (`src/spanexporter_gemini.py`) runs the
same three statements. -/
def ContextInjectionProcessor.on_start : Span → Span :=
  SecurityAndContextProcessor.on_start

/-- `SecurityAndContextProcessor.on_end`: when the attribute dict is present,
non-empty and holds `"payment.amount"`, overwrite it with `"[REDACTED]"` and set
the audit flag `"security.pii_scrubbed"`; otherwise do nothing. -/
def SecurityAndContextProcessor.on_end (sp : Span) : Span :=
  match sp.attrs with
  | none => sp
  | some m =>
    if m.isEmpty then sp
    else if (lookupA m "payment.amount").isSome then
      { sp with
        attrs := some (setAttr (setAttr m "payment.amount" (.str "[REDACTED]"))
          "security.pii_scrubbed" (.bool true)) }
    else sp

/-! ## The redacting exporter (`src/spanexporter_gemini.py` lines 30-66) -/

namespace AsyncRedactingExporter

/-- `self.skip_keys = {"meta.span_id", "meta.trace_id", "meta.parent_id"}`. -/
def skip_keys : List String := ["meta.span_id", "meta.trace_id", "meta.parent_id"]

/-- The audit key written by `export`. -/
def auditKey : String := "security.async_regex_scrubbed"

/-- The attribute loop of `export`: iterate the dict items in order; skip keys
of the skip-set; scrub string values through the three patterns; write a value
back (and raise the flag) only when it changed. `items` is the original item
list being iterated, `m` the dict being mutated, `flag` the running
`is_scrubbed`. -/
def exportLoop : List (String × AttrValue) → AttrMap → Bool → AttrMap × Bool
  | [], m, flag => (m, flag)
  | (key, v) :: items, m, flag =>
    match skip_keys.contains key with
    | true => exportLoop items m flag
    | false =>
      match v with
      | .str s =>
        match scrub s != s with
        | true => exportLoop items (setAttr m key (.str (scrub s))) true
        | false => exportLoop items m flag
      | _ => exportLoop items m flag

/-- The per-span body of `export`: spans with an absent or empty attribute dict
are skipped (`if not getattr(span, "_attributes", None): continue`); otherwise
the attribute loop runs and, if anything changed, the audit flag is set. -/
def exportSpan (sp : Span) : Span :=
  match sp.attrs with
  | none => sp
  | some m =>
    if m.isEmpty then sp
    else
      let r := exportLoop m m false
      { sp with attrs := some (if r.2 then setAttr r.1 auditKey (.bool true) else r.1) }

/-- Result type of a span exporter's `export`. -/
inductive SpanExportResult where
  | success
  | failure
deriving DecidableEq

/-- What one call of `AsyncRedactingExporter.export` does: the batch it hands to
the wrapped exporter, and the value it returns. -/
structure ExporterRun where
  delegated : List Span
  result : SpanExportResult

/-- `AsyncRedactingExporter.export(spans)`: scrub every span of the batch in
place, then `return self.underlying_exporter.export(spans)`. The wrapped
exporter is abstracted as a function on batches. (Named `exportBatch` because
`export` is a Lean keyword.) -/
def exportBatch (inner : List Span → SpanExportResult) (spans : List Span) : ExporterRun :=
  let scrubbed := spans.map exportSpan
  ⟨scrubbed, inner scrubbed⟩

end AsyncRedactingExporter

/-! ## The bounded export queue -/

/-- Modelled from the spec: the bounded export queue of the batch processor.
The `BatchSpanProcessor` the source configures (`src/spanexporter_gemini.py`
lines 83-89) is third-party SDK code, not part of this repository; the spec
specifies its queue as `enqueue(span) -> bool` against a fixed capacity, where
an enqueue at full capacity drops the incoming span and increments a
dropped-span counter instead of blocking. -/
structure BoundedQueue (α : Type) where
  capacity : Nat
  items : List α
  dropped : Nat
deriving DecidableEq

/-- Modelled from the spec: enqueue accepts (appending in FIFO order) while
below capacity and otherwise drops the incoming element, counting it. -/
def BoundedQueue.enqueue {α : Type} (q : BoundedQueue α) (a : α) :
    BoundedQueue α × Bool :=
  if q.items.length < q.capacity then ({ q with items := q.items ++ [a] }, true)
  else ({ q with dropped := q.dropped + 1 }, false)

/-- Whether one dict entry gets its value changed (and hence written back) by
the export loop: a string value, at a key outside the skip-set, altered by the
three-pattern substitution. -/
def entryScrubbed (kv : String × AttrValue) : Bool :=
  !AsyncRedactingExporter.skip_keys.contains kv.1 &&
    match kv.2 with
    | .str s => scrub s != s
    | _ => false

/-! ## Instrumentation of the substitution scan, used to reason about
idempotence of scrubbing.  None of this is extra behaviour: `chunksAux` records
the same scan `subAux` performs, keeping each copied character and each replaced
match, and `renderC`/`sourceC` project the output and the input back out. -/

/-- Wordness of the first character of a string (the boundary `\b` reads
nothing else of it); an empty string counts as non-word. -/
def headWord : List Char → Bool
  | [] => false
  | c :: _ => isWordChar c

/-- The character just before the position that follows `m`, when the position
before `m` was preceded by `prev`. -/
def ctxAfter (prev : Option Char) (m : List Char) : Option Char :=
  match m.getLast? with
  | some c => some c
  | none => prev

/-- No match of `pat` starts at any position of the string (with `prev` the
character before its first position). -/
def cleanB (pat : List Atom) : Option Char → List Char → Bool
  | prev, s =>
    (matchSeq s prev pat).isEmpty &&
      match s with
      | [] => true
      | c :: s2 => cleanB pat (some c) s2

/-- One step of the substitution scan: a copied character or a replaced match
(recording the matched source text). -/
inductive Chunk where
  | kC (c : Char)
  | rC (m : List Char)

/-- The output string of a scan. -/
def renderC : List Chunk → List Char
  | [] => []
  | .kC c :: t => c :: renderC t
  | .rC _ :: t => redactedPII ++ renderC t

/-- The input string of a scan. -/
def sourceC : List Chunk → List Char
  | [] => []
  | .kC c :: t => c :: sourceC t
  | .rC m :: t => m ++ sourceC t

/-- The scan of `subAux`, recording chunks instead of emitting the output. -/
def chunksAux (pat : List Atom) : Nat → Option Char → List Char → List Chunk
  | 0, _, s => s.map .kC
  | f+1, prev, s =>
    match matchHere pat prev s with
    | none =>
      match s with
      | [] => []
      | c :: s2 => .kC c :: chunksAux pat f (some c) s2
    | some 0 =>
      match s with
      | [] => [.rC []]
      | c :: s2 => .rC [] :: .kC c :: chunksAux pat f (some c) s2
    | some (n+1) =>
      .rC (s.take (n+1)) :: chunksAux pat f (s.take (n+1)).getLast? (s.drop (n+1))

/-- The leading run of copied characters of a chunk list. -/
def keptRun : List Chunk → List Char
  | .kC c :: t => c :: keptRun t
  | _ => []

/-- What follows the leading run of copied characters. -/
def afterRun : List Chunk → List Chunk
  | .kC _ :: t => afterRun t
  | t => t

/-- Every replaced chunk of the list really was a match of `pat` against the
source at its own position (`ctx` is the character just before the list's
source). -/
def GoodChunks (pat : List Atom) : Option Char → List Chunk → Prop
  | _, [] => True
  | _, .kC c :: t => GoodChunks pat (some c) t
  | ctx, .rC m :: t =>
    (∃ q, (m.length, q) ∈ matchSeq (m ++ sourceC t) ctx pat) ∧ m ≠ []
      ∧ GoodChunks pat (ctxAfter ctx m) t

/-- Closure of the character classes an atom list can consume from. -/
inductive AtomsIn (B : Char → Bool) : List Atom → Prop
  | nil : AtomsIn B []
  | wb {rest} : AtomsIn B rest → AtomsIn B (.wb :: rest)
  | cls {p rest} : (∀ c, p c = true → B c = true) → AtomsIn B rest →
      AtomsIn B (.cls p :: rest)
  | rep {g lo hi hd body rest} : (∀ c, hd c = true → B c = true) →
      AtomsIn B body → AtomsIn B rest → AtomsIn B (.rep g lo hi hd body :: rest)

/-- The union of the email pattern's character classes. -/
def pclsEmail (c : Char) : Bool :=
  emailLocalClass c || c == '@' || emailDomainClass c || c == '.' || tldClass c

/-- The union of the card pattern's character classes. -/
def pclsCard (c : Char) : Bool :=
  digitClass c || sepClass c

/-- The union of the SSN pattern's character classes. -/
def pclsSsn (c : Char) : Bool :=
  digitClass c || c == '-'

/-- The facts about one pattern that drive the idempotence argument: every
match is nonempty, is flanked by word boundaries, consumes only characters of
the pattern's classes (which exclude the marker's brackets), and consumes at
least one mandatory character that the marker does not contain. -/
structure PatFacts (P : List Atom) (pcls mand : Char → Bool) : Prop where
  one_le : ∀ prev s np, np ∈ matchSeq s prev P → 1 ≤ np.1
  lead_wb : ∀ prev s np, np ∈ matchSeq s prev P → (isWordO prev != headWord s) = true
  trail_wb : ∀ prev s np, np ∈ matchSeq s prev P →
    (isWordO np.2 != headWord (s.drop np.1)) = true
  classes : ∀ prev s np c, np ∈ matchSeq s prev P → c ∈ s.take np.1 → pcls c = true
  mandatory : ∀ prev s np, np ∈ matchSeq s prev P → ∃ c ∈ s.take np.1, mand c = true
  pcls_lb : pcls '[' = false
  pcls_rb : pcls ']' = false
  mand_marker : ∀ c ∈ redactedPII, mand c = false

/-! ## Sample spans used by concrete witnesses and counterexamples -/

/-- A span like the one `process_chat` builds, carrying raw PII. -/
def sampleScrubSpan : Span :=
  ⟨"process_chat_request", ⟨1, 2⟩, none,
    some [("app.context_dump", .str "contact me at a@b.com or 4111-1111-1111-1111")]⟩

/-- A span like the one `process_payment` builds. -/
def samplePaymentSpan : Span :=
  ⟨"process_payment_request", ⟨1, 2⟩, none,
    some [("payment.amount", .int 250), ("user.id", .str "user_100")]⟩

/-- A span whose protected correlation key holds a value that matches the email
detector. -/
def sampleMetaSpan : Span :=
  ⟨"s", ⟨1, 2⟩, none, some [("meta.trace_id", .str "a@b.com")]⟩

/-- A span with one scrubbable string attribute. -/
def sampleEmailSpan : Span :=
  ⟨"s", ⟨1, 2⟩, none, some [("x", .str "a@b.com")]⟩

/-- A span that stores a scrubbable *string* under the exporter's own audit key
`"security.async_regex_scrubbed"`: the loop scrubs it, but the post-loop flag
write then overwrites the scrubbed string with the boolean `true`. -/
def cexC1Span : Span :=
  ⟨"s", ⟨1, 2⟩, none, some [("security.async_regex_scrubbed", .str "a@b.com")]⟩

/-- A span that already carries a *non-string* value under the exporter's own
audit key, next to a scrubbable attribute. -/
def cexAuditSpan : Span :=
  ⟨"s", ⟨1, 2⟩, none,
    some [("security.async_regex_scrubbed", .int 7), ("x", .str "a@b.com")]⟩

/-- A span with no attribute dict at all. -/
def emptyAttrSpan : Span := ⟨"s", ⟨1, 2⟩, none, none⟩

/-! # Theorems -/

open AsyncRedactingExporter

/-! ## Association-list lemmas -/

theorem lookupA_setAttr_self : ∀ (m : AttrMap) (k : String) (v : AttrValue),
    lookupA (setAttr m k v) k = some v
  | [], k, v => by simp [setAttr, lookupA]
  | (k2, w) :: m, k, v => by
    by_cases h : k2 = k
    · subst h; simp [setAttr, lookupA]
    · simp only [setAttr, lookupA, beq_iff_eq, h, if_false]
      exact lookupA_setAttr_self m k v

theorem lookupA_setAttr_ne : ∀ (m : AttrMap) (k key : String) (v : AttrValue),
    k ≠ key → lookupA (setAttr m k v) key = lookupA m key
  | [], k, key, v, h => by simp [setAttr, lookupA, h]
  | (k2, w) :: m, k, key, v, h => by
    by_cases h2 : k2 = k
    · subst h2; simp [setAttr, lookupA, h]
    · simp only [setAttr, lookupA, beq_iff_eq, h2, if_false]
      by_cases h3 : k2 = key
      · simp [h3]
      · simp only [h3, if_false]
        exact lookupA_setAttr_ne m k key v h

/-- Split a nodup-keys hypothesis at a cons. -/
theorem nodupKeys_cons {k : String} {v : AttrValue} {m : AttrMap}
    (h : (((k, v) :: m).map Prod.fst).Nodup) :
    k ∉ m.map Prod.fst ∧ (m.map Prod.fst).Nodup := by
  rw [List.map_cons] at h
  exact ⟨(List.nodup_cons.mp h).1, (List.nodup_cons.mp h).2⟩

theorem lookupA_eq_of_mem : ∀ (m : AttrMap) (key : String) (v : AttrValue),
    (m.map Prod.fst).Nodup → (key, v) ∈ m → lookupA m key = some v
  | [], key, v, _, hmem => by simp at hmem
  | (k2, w) :: m, key, v, hnd, hmem => by
    rcases List.mem_cons.mp hmem with h | h
    · obtain ⟨h1, h2⟩ := Prod.mk.inj h
      subst h1; subst h2
      simp [lookupA]
    · have hk2 : k2 ≠ key := by
        intro he; subst he
        exact (nodupKeys_cons hnd).1 (List.mem_map.mpr ⟨(k2, v), h, rfl⟩)
      simp only [lookupA, beq_iff_eq, hk2, if_false]
      exact lookupA_eq_of_mem m key v (nodupKeys_cons hnd).2 h

/-! ## Export-loop unfolding lemmas -/

theorem exportLoop_nil (m : AttrMap) (flag : Bool) : exportLoop [] m flag = (m, flag) := rfl

theorem exportLoop_cons_skip {key : String} (v : AttrValue)
    (items : List (String × AttrValue)) (m : AttrMap) (flag : Bool)
    (h : skip_keys.contains key = true) :
    exportLoop ((key, v) :: items) m flag = exportLoop items m flag := by
  simp only [exportLoop]
  rw [h]

theorem exportLoop_cons_changed {key s} (items : List (String × AttrValue)) (m : AttrMap)
    (flag : Bool) (h : skip_keys.contains key = false) (hc : scrub s ≠ s) :
    exportLoop ((key, AttrValue.str s) :: items) m flag =
      exportLoop items (setAttr m key (.str (scrub s))) true := by
  simp only [exportLoop]
  rw [h, bne_iff_ne.mpr hc]

theorem exportLoop_cons_same {key s} (items : List (String × AttrValue)) (m : AttrMap)
    (flag : Bool) (h : skip_keys.contains key = false) (hc : scrub s = s) :
    exportLoop ((key, AttrValue.str s) :: items) m flag = exportLoop items m flag := by
  simp only [exportLoop]
  rw [h, show (scrub s != s) = false by simp [hc]]

theorem exportLoop_cons_nonstr {key : String} {v : AttrValue}
    (items : List (String × AttrValue)) (m : AttrMap) (flag : Bool)
    (h : skip_keys.contains key = false) (hv : ∀ s, v ≠ .str s) :
    exportLoop ((key, v) :: items) m flag = exportLoop items m flag := by
  cases v with
  | str s => exact absurd rfl (hv s)
  | int n => simp only [exportLoop]; rw [h]
  | float x => simp only [exportLoop]; rw [h]
  | bool b => simp only [exportLoop]; rw [h]

/-! ## Export-loop behaviour -/

theorem exportLoop_flag : ∀ (items : List (String × AttrValue)) (m : AttrMap) (flag : Bool),
    (exportLoop items m flag).2 = (flag || items.any entryScrubbed)
  | [], m, flag => by simp [exportLoop]
  | (key, v) :: items, m, flag => by
    have hub : entryScrubbed (key, v) =
        (!skip_keys.contains key && match v with
          | .str s => scrub s != s
          | _ => false) := rfl
    cases hs : skip_keys.contains key with
    | true =>
      rw [exportLoop_cons_skip v items m flag hs, exportLoop_flag items m flag,
        List.any_cons, hub, hs]
      simp
    | false =>
      cases v with
      | str s =>
        by_cases hc : scrub s = s
        · rw [exportLoop_cons_same items m flag hs hc, exportLoop_flag items m flag,
            List.any_cons, hub, hs]
          simp [hc]
        · rw [exportLoop_cons_changed items m flag hs hc, exportLoop_flag items _ true,
            List.any_cons, hub, hs]
          simp [bne_iff_ne.mpr hc]
      | int n =>
        rw [exportLoop_cons_nonstr items m flag hs (by intro t ht; cases ht),
          exportLoop_flag items m flag, List.any_cons, hub, hs]
        simp
      | float x =>
        rw [exportLoop_cons_nonstr items m flag hs (by intro t ht; cases ht),
          exportLoop_flag items m flag, List.any_cons, hub, hs]
        simp
      | bool b =>
        rw [exportLoop_cons_nonstr items m flag hs (by intro t ht; cases ht),
          exportLoop_flag items m flag, List.any_cons, hub, hs]
        simp

theorem exportLoop_frame : ∀ (items : List (String × AttrValue)) (m : AttrMap) (flag : Bool)
    (key : String),
    (∀ s, (key, AttrValue.str s) ∈ items → skip_keys.contains key = true ∨ scrub s = s) →
    lookupA (exportLoop items m flag).1 key = lookupA m key
  | [], m, flag, key, _ => by simp [exportLoop]
  | (k2, v) :: items, m, flag, key, h => by
    have hrest : ∀ s, (key, AttrValue.str s) ∈ items →
        skip_keys.contains key = true ∨ scrub s = s :=
      fun s hs => h s (List.mem_cons_of_mem _ hs)
    cases hs : skip_keys.contains k2 with
    | true =>
      rw [exportLoop_cons_skip v items m flag hs]
      exact exportLoop_frame items m flag key hrest
    | false =>
      cases v with
      | str s =>
        by_cases hc : scrub s = s
        · rw [exportLoop_cons_same items m flag hs hc]
          exact exportLoop_frame items m flag key hrest
        · have hk2 : k2 ≠ key := by
            intro he; subst he
            rcases h s (List.mem_cons_self _ _) with h1 | h1
            · rw [hs] at h1; cases h1
            · exact hc h1
          rw [exportLoop_cons_changed items m flag hs hc,
            exportLoop_frame items _ true key hrest, lookupA_setAttr_ne m k2 key _ hk2]
      | int n =>
        rw [exportLoop_cons_nonstr items m flag hs (by intro t ht; cases ht)]
        exact exportLoop_frame items m flag key hrest
      | float x =>
        rw [exportLoop_cons_nonstr items m flag hs (by intro t ht; cases ht)]
        exact exportLoop_frame items m flag key hrest
      | bool b =>
        rw [exportLoop_cons_nonstr items m flag hs (by intro t ht; cases ht)]
        exact exportLoop_frame items m flag key hrest

theorem exportLoop_lookup_str : ∀ (items : List (String × AttrValue)) (m : AttrMap)
    (flag : Bool) (key : String) (s : String),
    (items.map Prod.fst).Nodup → (key, AttrValue.str s) ∈ items →
    skip_keys.contains key = false →
    lookupA (exportLoop items m flag).1 key =
      if scrub s = s then lookupA m key else some (.str (scrub s))
  | [], m, flag, key, s, _, hmem, _ => by simp at hmem
  | (k2, v) :: items, m, flag, key, s, hnd, hmem, hskip => by
    have hnd2 : (items.map Prod.fst).Nodup := (nodupKeys_cons hnd).2
    rcases List.mem_cons.mp hmem with h | h
    · -- the head is our entry
      obtain ⟨h1, h2⟩ := Prod.mk.inj h
      subst h1; subst h2
      have hrest : ∀ t, (key, AttrValue.str t) ∈ items →
          skip_keys.contains key = true ∨ scrub t = t := by
        intro t ht
        exact absurd (List.mem_map.mpr ⟨(key, AttrValue.str t), ht, rfl⟩)
          (nodupKeys_cons hnd).1
      by_cases hc : scrub s = s
      · rw [exportLoop_cons_same items m flag hskip hc,
          exportLoop_frame items m flag key hrest, if_pos hc]
      · rw [exportLoop_cons_changed items m flag hskip hc,
          exportLoop_frame items _ true key hrest, lookupA_setAttr_self m key _, if_neg hc]
    · -- our entry is further down; the head key differs from ours
      have hk2 : k2 ≠ key := by
        intro he; subst he
        exact (nodupKeys_cons hnd).1
          (List.mem_map.mpr ⟨(k2, AttrValue.str s), h, rfl⟩)
      cases hs : skip_keys.contains k2 with
      | true =>
        rw [exportLoop_cons_skip v items m flag hs]
        exact exportLoop_lookup_str items m flag key s hnd2 h hskip
      | false =>
        cases v with
        | str t =>
          by_cases hc : scrub t = t
          · rw [exportLoop_cons_same items m flag hs hc]
            exact exportLoop_lookup_str items m flag key s hnd2 h hskip
          · rw [exportLoop_cons_changed items m flag hs hc,
              exportLoop_lookup_str items _ true key s hnd2 h hskip,
              lookupA_setAttr_ne m k2 key _ hk2]
        | int n =>
          rw [exportLoop_cons_nonstr items m flag hs (by intro t ht; cases ht)]
          exact exportLoop_lookup_str items m flag key s hnd2 h hskip
        | float x =>
          rw [exportLoop_cons_nonstr items m flag hs (by intro t ht; cases ht)]
          exact exportLoop_lookup_str items m flag key s hnd2 h hskip
        | bool b =>
          rw [exportLoop_cons_nonstr items m flag hs (by intro t ht; cases ht)]
          exact exportLoop_lookup_str items m flag key s hnd2 h hskip

/-! ## Engine unfolding lemmas -/

theorem matchSeq_atoms_nil (s : List Char) (prev : Option Char) :
    matchSeq s prev [] = [(0, prev)] := by
  cases s <;> rfl

theorem matchSeq_wb (s : List Char) (prev : Option Char) (rest : List Atom) :
    matchSeq s prev (.wb :: rest) =
      if isWordO prev != headWord s then matchSeq s prev rest else [] := by
  cases s <;> rfl

theorem matchSeq_cls_nil (prev : Option Char) (p : Char → Bool) (rest : List Atom) :
    matchSeq [] prev (.cls p :: rest) = [] := rfl

theorem matchSeq_cls_cons (c : Char) (s2 : List Char) (prev : Option Char)
    (p : Char → Bool) (rest : List Atom) :
    matchSeq (c :: s2) prev (.cls p :: rest) =
      if p c then bump (matchSeq s2 (some c) rest) else [] := rfl

theorem matchSeq_repS_nil (prev : Option Char) (g : Bool) (l : Nat) (hi : Option Nat)
    (hd : Char → Bool) (body rest : List Atom) :
    matchSeq [] prev (.rep g (l+1) hi hd body :: rest) = [] := rfl

theorem matchSeq_repS_cons (c : Char) (s2 : List Char) (prev : Option Char) (g : Bool)
    (l : Nat) (hi : Option Nat) (hd : Char → Bool) (body rest : List Atom) :
    matchSeq (c :: s2) prev (.rep g (l+1) hi hd body :: rest) =
      if hd c then
        bump (matchSeq s2 (some c) (body ++ .rep g l (hi.map (· - 1)) hd body :: rest))
      else [] := rfl

theorem matchSeq_rep00 (s : List Char) (prev : Option Char) (g : Bool)
    (hd : Char → Bool) (body rest : List Atom) :
    matchSeq s prev (.rep g 0 (some 0) hd body :: rest) = matchSeq s prev rest := by
  cases s <;> rfl

theorem matchSeq_rep0_none_nil (prev : Option Char) (g : Bool)
    (hd : Char → Bool) (body rest : List Atom) :
    matchSeq [] prev (.rep g 0 none hd body :: rest) = matchSeq [] prev rest := by
  cases g <;> simp [matchSeq, goM]

theorem matchSeq_rep0_none_cons (c : Char) (s2 : List Char) (prev : Option Char) (g : Bool)
    (hd : Char → Bool) (body rest : List Atom) :
    matchSeq (c :: s2) prev (.rep g 0 none hd body :: rest) =
      (if g then
        (if hd c then
          bump (matchSeq s2 (some c) (body ++ .rep g 0 none hd body :: rest))
         else []) ++ matchSeq (c :: s2) prev rest
       else
        matchSeq (c :: s2) prev rest ++
          (if hd c then
            bump (matchSeq s2 (some c) (body ++ .rep g 0 none hd body :: rest))
           else [])) := rfl

theorem matchSeq_rep0S_nil (prev : Option Char) (g : Bool) (k : Nat)
    (hd : Char → Bool) (body rest : List Atom) :
    matchSeq [] prev (.rep g 0 (some (k+1)) hd body :: rest) = matchSeq [] prev rest := by
  cases g <;> simp [matchSeq, goM]

theorem matchSeq_rep0S_cons (c : Char) (s2 : List Char) (prev : Option Char) (g : Bool)
    (k : Nat) (hd : Char → Bool) (body rest : List Atom) :
    matchSeq (c :: s2) prev (.rep g 0 (some (k+1)) hd body :: rest) =
      (if g then
        (if hd c then
          bump (matchSeq s2 (some c) (body ++ .rep g 0 (some k) hd body :: rest))
         else []) ++ matchSeq (c :: s2) prev rest
       else
        matchSeq (c :: s2) prev rest ++
          (if hd c then
            bump (matchSeq s2 (some c) (body ++ .rep g 0 (some k) hd body :: rest))
           else [])) := rfl

/-- Membership in `bump`. -/
theorem mem_bump {l : List (Nat × Option Char)} {np : Nat × Option Char} :
    np ∈ bump l ↔ ∃ nq ∈ l, np = (nq.1 + 1, nq.2) := by
  simp only [bump, List.mem_map]
  constructor
  · rintro ⟨nq, h, rfl⟩; exact ⟨nq, h, rfl⟩
  · rintro ⟨nq, h, rfl⟩; exact ⟨nq, h, rfl⟩

/-- Dispatch membership in the two-branch backtracking alternative. -/
theorem mem_ite_append_elim {α : Type} {g : Bool} {A B : List α} {x : α}
    (h : x ∈ (if g then A ++ B else B ++ A)) : x ∈ A ∨ x ∈ B := by
  split at h <;> rcases List.mem_append.mp h with h | h
  · exact Or.inl h
  · exact Or.inr h
  · exact Or.inr h
  · exact Or.inl h

/-- A match never consumes more characters than the string has. -/
theorem mem_le_length (s : List Char) (prev : Option Char) (atoms : List Atom)
    (np : Nat × Option Char) (h : np ∈ matchSeq s prev atoms) : np.1 ≤ s.length := by
  match atoms with
  | [] =>
    rw [matchSeq_atoms_nil] at h
    simp only [List.mem_singleton] at h
    subst h
    simp
  | .wb :: rest =>
    rw [matchSeq_wb] at h
    split at h
    · exact mem_le_length s prev rest np h
    · simp at h
  | .cls p :: rest =>
    match s with
    | [] => rw [matchSeq_cls_nil] at h; simp at h
    | c :: s2 =>
      rw [matchSeq_cls_cons] at h
      split at h
      · rcases mem_bump.mp h with ⟨nq, hq, rfl⟩
        have := mem_le_length s2 (some c) rest nq hq
        simp only [List.length_cons]
        omega
      · simp at h
  | .rep g (l+1) hi hd body :: rest =>
    match s with
    | [] => rw [matchSeq_repS_nil] at h; simp at h
    | c :: s2 =>
      rw [matchSeq_repS_cons] at h
      split at h
      · rcases mem_bump.mp h with ⟨nq, hq, rfl⟩
        have := mem_le_length s2 (some c) _ nq hq
        simp only [List.length_cons]
        omega
      · simp at h
  | .rep g 0 (some 0) hd body :: rest =>
    rw [matchSeq_rep00] at h
    exact mem_le_length s prev rest np h
  | .rep g 0 none hd body :: rest =>
    match s with
    | [] =>
      rw [matchSeq_rep0_none_nil] at h
      exact mem_le_length [] prev rest np h
    | c :: s2 =>
      rw [matchSeq_rep0_none_cons] at h
      rcases mem_ite_append_elim h with hm | hm
      · split at hm
        · rcases mem_bump.mp hm with ⟨nq, hq, rfl⟩
          have := mem_le_length s2 (some c) _ nq hq
          simp only [List.length_cons]
          omega
        · simp at hm
      · exact mem_le_length (c :: s2) prev rest np hm
  | .rep g 0 (some (k+1)) hd body :: rest =>
    match s with
    | [] =>
      rw [matchSeq_rep0S_nil] at h
      exact mem_le_length [] prev rest np h
    | c :: s2 =>
      rw [matchSeq_rep0S_cons] at h
      rcases mem_ite_append_elim h with hm | hm
      · split at hm
        · rcases mem_bump.mp hm with ⟨nq, hq, rfl⟩
          have := mem_le_length s2 (some c) _ nq hq
          simp only [List.length_cons]
          omega
        · simp at hm
      · exact mem_le_length (c :: s2) prev rest np hm
termination_by (s.length, sizeOf atoms)

/-- Rebuild membership in the two-branch backtracking alternative. -/
theorem mem_ite_append_intro {α : Type} {g : Bool} {A B : List α} {x : α}
    (h : x ∈ A ∨ x ∈ B) : x ∈ (if g then A ++ B else B ++ A) := by
  rcases h with h | h <;> split <;>
    first
      | exact List.mem_append_left _ h
      | exact List.mem_append_right _ h

theorem ctxAfter_nil (prev : Option Char) : ctxAfter prev [] = prev := rfl

theorem ctxAfter_cons (prev : Option Char) (c : Char) (l : List Char) :
    ctxAfter prev (c :: l) = ctxAfter (some c) l := by
  cases l with
  | nil => rfl
  | cons d t =>
    obtain ⟨x, hx⟩ := Option.isSome_iff_exists.mp
      (List.getLast?_isSome.mpr (List.cons_ne_nil d t) : (d :: t).getLast?.isSome)
    simp [ctxAfter, List.getLast?_cons_cons, hx]

/-- The second component of a match is the last character it consumed (or the
previous context when it consumed nothing). -/
theorem mem_snd (s : List Char) (prev : Option Char) (atoms : List Atom)
    (np : Nat × Option Char) (h : np ∈ matchSeq s prev atoms) :
    np.2 = ctxAfter prev (s.take np.1) := by
  match atoms with
  | [] =>
    rw [matchSeq_atoms_nil] at h
    simp only [List.mem_singleton] at h
    subst h
    rfl
  | .wb :: rest =>
    rw [matchSeq_wb] at h
    split at h
    · exact mem_snd s prev rest np h
    · simp at h
  | .cls p :: rest =>
    match s with
    | [] => rw [matchSeq_cls_nil] at h; simp at h
    | c :: s2 =>
      rw [matchSeq_cls_cons] at h
      split at h
      · rcases mem_bump.mp h with ⟨nq, hq, rfl⟩
        have := mem_snd s2 (some c) rest nq hq
        simpa [ctxAfter_cons] using this
      · simp at h
  | .rep g (l+1) hi hd body :: rest =>
    match s with
    | [] => rw [matchSeq_repS_nil] at h; simp at h
    | c :: s2 =>
      rw [matchSeq_repS_cons] at h
      split at h
      · rcases mem_bump.mp h with ⟨nq, hq, rfl⟩
        have := mem_snd s2 (some c) _ nq hq
        simpa [ctxAfter_cons] using this
      · simp at h
  | .rep g 0 (some 0) hd body :: rest =>
    rw [matchSeq_rep00] at h
    exact mem_snd s prev rest np h
  | .rep g 0 none hd body :: rest =>
    match s with
    | [] =>
      rw [matchSeq_rep0_none_nil] at h
      exact mem_snd [] prev rest np h
    | c :: s2 =>
      rw [matchSeq_rep0_none_cons] at h
      rcases mem_ite_append_elim h with hm | hm
      · split at hm
        · rcases mem_bump.mp hm with ⟨nq, hq, rfl⟩
          have := mem_snd s2 (some c) _ nq hq
          simpa [ctxAfter_cons] using this
        · simp at hm
      · exact mem_snd (c :: s2) prev rest np hm
  | .rep g 0 (some (k+1)) hd body :: rest =>
    match s with
    | [] =>
      rw [matchSeq_rep0S_nil] at h
      exact mem_snd [] prev rest np h
    | c :: s2 =>
      rw [matchSeq_rep0S_cons] at h
      rcases mem_ite_append_elim h with hm | hm
      · split at hm
        · rcases mem_bump.mp hm with ⟨nq, hq, rfl⟩
          have := mem_snd s2 (some c) _ nq hq
          simpa [ctxAfter_cons] using this
        · simp at hm
      · exact mem_snd (c :: s2) prev rest np hm
termination_by (s.length, sizeOf atoms)

/-- A nonempty match only reads the wordness of the context character, not the
character itself. -/
theorem mem_prev_congr (s : List Char) (prev1 prev2 : Option Char) (atoms : List Atom)
    (np : Nat × Option Char) (h : np ∈ matchSeq s prev1 atoms) (hone : 1 ≤ np.1)
    (hw : isWordO prev1 = isWordO prev2) : np ∈ matchSeq s prev2 atoms := by
  match atoms with
  | [] =>
    rw [matchSeq_atoms_nil] at h
    simp only [List.mem_singleton] at h
    subst h
    simp at hone
  | .wb :: rest =>
    rw [matchSeq_wb] at h
    rw [matchSeq_wb, ← hw]
    split at h
    · rw [if_pos (by assumption)]
      exact mem_prev_congr s prev1 prev2 rest np h hone hw
    · simp at h
  | .cls p :: rest =>
    match s with
    | [] => rw [matchSeq_cls_nil] at h; simp at h
    | c :: s2 =>
      rw [matchSeq_cls_cons] at h
      rw [matchSeq_cls_cons]
      exact h
  | .rep g (l+1) hi hd body :: rest =>
    match s with
    | [] => rw [matchSeq_repS_nil] at h; simp at h
    | c :: s2 =>
      rw [matchSeq_repS_cons] at h
      rw [matchSeq_repS_cons]
      exact h
  | .rep g 0 (some 0) hd body :: rest =>
    rw [matchSeq_rep00] at h
    rw [matchSeq_rep00]
    exact mem_prev_congr s prev1 prev2 rest np h hone hw
  | .rep g 0 none hd body :: rest =>
    match s with
    | [] =>
      rw [matchSeq_rep0_none_nil] at h
      rw [matchSeq_rep0_none_nil]
      exact mem_prev_congr [] prev1 prev2 rest np h hone hw
    | c :: s2 =>
      rw [matchSeq_rep0_none_cons] at h
      rw [matchSeq_rep0_none_cons]
      refine mem_ite_append_intro ?_
      rcases mem_ite_append_elim h with hm | hm
      · exact Or.inl hm
      · exact Or.inr (mem_prev_congr (c :: s2) prev1 prev2 rest np hm hone hw)
  | .rep g 0 (some (k+1)) hd body :: rest =>
    match s with
    | [] =>
      rw [matchSeq_rep0S_nil] at h
      rw [matchSeq_rep0S_nil]
      exact mem_prev_congr [] prev1 prev2 rest np h hone hw
    | c :: s2 =>
      rw [matchSeq_rep0S_cons] at h
      rw [matchSeq_rep0S_cons]
      refine mem_ite_append_intro ?_
      rcases mem_ite_append_elim h with hm | hm
      · exact Or.inl hm
      · exact Or.inr (mem_prev_congr (c :: s2) prev1 prev2 rest np hm hone hw)
termination_by (s.length, sizeOf atoms)

theorem zero_mem_rep0_intro (s : List Char) (prev : Option Char) (g : Bool)
    (hi : Option Nat) (hd : Char → Bool) (body rest : List Atom) (q : Option Char)
    (h : (0, q) ∈ matchSeq s prev rest) :
    (0, q) ∈ matchSeq s prev (.rep g 0 hi hd body :: rest) := by
  match hi, s with
  | some 0, s => rw [matchSeq_rep00]; exact h
  | none, [] => rw [matchSeq_rep0_none_nil]; exact h
  | none, c :: s2 => rw [matchSeq_rep0_none_cons]; exact mem_ite_append_intro (Or.inr h)
  | some (k+1), [] => rw [matchSeq_rep0S_nil]; exact h
  | some (k+1), c :: s2 => rw [matchSeq_rep0S_cons]; exact mem_ite_append_intro (Or.inr h)

theorem zero_mem_rep0_elim (s : List Char) (prev : Option Char) (g : Bool)
    (hi : Option Nat) (hd : Char → Bool) (body rest : List Atom) (q : Option Char)
    (h : (0, q) ∈ matchSeq s prev (.rep g 0 hi hd body :: rest)) :
    (0, q) ∈ matchSeq s prev rest := by
  match hi, s with
  | some 0, s => rw [matchSeq_rep00] at h; exact h
  | none, [] => rw [matchSeq_rep0_none_nil] at h; exact h
  | none, c :: s2 =>
    rw [matchSeq_rep0_none_cons] at h
    rcases mem_ite_append_elim h with hm | hm
    · split at hm
      · rcases mem_bump.mp hm with ⟨nq, _, heq⟩
        simp at heq
      · simp at hm
    · exact hm
  | some (k+1), [] => rw [matchSeq_rep0S_nil] at h; exact h
  | some (k+1), c :: s2 =>
    rw [matchSeq_rep0S_cons] at h
    rcases mem_ite_append_elim h with hm | hm
    · split at hm
      · rcases mem_bump.mp hm with ⟨nq, _, heq⟩
        simp at heq
      · simp at hm
    · exact hm

/-- An empty match only reads the wordness of the string's first character. -/
theorem mem_zero_congr (atoms : List Atom) (s1 s2 : List Char) (prev q : Option Char)
    (h : (0, q) ∈ matchSeq s1 prev atoms) (hw : headWord s1 = headWord s2) :
    (0, q) ∈ matchSeq s2 prev atoms := by
  match atoms with
  | [] => rw [matchSeq_atoms_nil] at h ⊢; exact h
  | .wb :: rest =>
    rw [matchSeq_wb] at h
    rw [matchSeq_wb, ← hw]
    split at h
    · rw [if_pos (by assumption)]
      exact mem_zero_congr rest s1 s2 prev q h hw
    · simp at h
  | .cls p :: rest =>
    exfalso
    match s1 with
    | [] => rw [matchSeq_cls_nil] at h; simp at h
    | c :: s12 =>
      rw [matchSeq_cls_cons] at h
      split at h
      · rcases mem_bump.mp h with ⟨nq, _, heq⟩
        simp at heq
      · simp at h
  | .rep g (l+1) hi hd body :: rest =>
    exfalso
    match s1 with
    | [] => rw [matchSeq_repS_nil] at h; simp at h
    | c :: s12 =>
      rw [matchSeq_repS_cons] at h
      split at h
      · rcases mem_bump.mp h with ⟨nq, _, heq⟩
        simp at heq
      · simp at h
  | .rep g 0 hi hd body :: rest =>
    have h2 := zero_mem_rep0_elim s1 prev g hi hd body rest q h
    exact zero_mem_rep0_intro s2 prev g hi hd body rest q
      (mem_zero_congr rest s1 s2 prev q h2 hw)
termination_by sizeOf atoms

/-- Locality: whether a given pair is a match depends only on the consumed
characters and the wordness of the first character beyond them. -/
theorem mem_locality (m r1 r2 : List Char) (prev : Option Char) (atoms : List Atom)
    (np : Nat × Option Char) (h : np ∈ matchSeq (m ++ r1) prev atoms)
    (hlen : np.1 ≤ m.length) (hw : np.1 < m.length ∨ headWord r1 = headWord r2) :
    np ∈ matchSeq (m ++ r2) prev atoms := by
  match m with
  | [] =>
    obtain ⟨n, q⟩ := np
    have hn : n = 0 := Nat.le_zero.mp hlen
    subst hn
    rcases hw with hw | hw
    · simp at hw
    · exact mem_zero_congr atoms r1 r2 prev q h hw
  | c :: m2 =>
    match atoms with
    | [] => rw [matchSeq_atoms_nil] at h ⊢; exact h
    | .wb :: rest =>
      simp only [List.cons_append] at h ⊢
      rw [matchSeq_wb] at h
      rw [matchSeq_wb]
      split at h
      · rw [if_pos (by simpa [headWord] using (by assumption :
          (isWordO prev != headWord (c :: (m2 ++ r1))) = true))]
        have := mem_locality (c :: m2) r1 r2 prev rest np
          (by simpa [List.cons_append] using h) hlen hw
        simpa [List.cons_append] using this
      · simp at h
    | .cls p :: rest =>
      simp only [List.cons_append] at h ⊢
      rw [matchSeq_cls_cons] at h
      rw [matchSeq_cls_cons]
      split at h
      · rw [if_pos (by assumption)]
        rcases mem_bump.mp h with ⟨nq, hq, rfl⟩
        exact mem_bump.mpr ⟨nq, mem_locality m2 r1 r2 (some c) rest nq hq
          (by simp at hlen; omega)
          (by rcases hw with hw | hw
              · left; simp at hw; omega
              · exact Or.inr hw), rfl⟩
      · simp at h
    | .rep g (l+1) hi hd body :: rest =>
      simp only [List.cons_append] at h ⊢
      rw [matchSeq_repS_cons] at h
      rw [matchSeq_repS_cons]
      split at h
      · rw [if_pos (by assumption)]
        rcases mem_bump.mp h with ⟨nq, hq, rfl⟩
        exact mem_bump.mpr ⟨nq, mem_locality m2 r1 r2 (some c) _ nq hq
          (by simp at hlen; omega)
          (by rcases hw with hw | hw
              · left; simp at hw; omega
              · exact Or.inr hw), rfl⟩
      · simp at h
    | .rep g 0 (some 0) hd body :: rest =>
      rw [matchSeq_rep00] at h
      rw [matchSeq_rep00]
      exact mem_locality (c :: m2) r1 r2 prev rest np h hlen hw
    | .rep g 0 none hd body :: rest =>
      simp only [List.cons_append] at h ⊢
      rw [matchSeq_rep0_none_cons] at h
      rw [matchSeq_rep0_none_cons]
      refine mem_ite_append_intro ?_
      rcases mem_ite_append_elim h with hm | hm
      · left
        split at hm
        · rw [if_pos (by assumption)]
          rcases mem_bump.mp hm with ⟨nq, hq, rfl⟩
          exact mem_bump.mpr ⟨nq, mem_locality m2 r1 r2 (some c) _ nq hq
            (by simp at hlen; omega)
            (by rcases hw with hw | hw
                · left; simp at hw; omega
                · exact Or.inr hw), rfl⟩
        · simp at hm
      · right
        have := mem_locality (c :: m2) r1 r2 prev rest np ?hmem hlen hw
        · simpa [List.cons_append] using this
        case hmem => simpa [List.cons_append] using hm
    | .rep g 0 (some (k+1)) hd body :: rest =>
      simp only [List.cons_append] at h ⊢
      rw [matchSeq_rep0S_cons] at h
      rw [matchSeq_rep0S_cons]
      refine mem_ite_append_intro ?_
      rcases mem_ite_append_elim h with hm | hm
      · left
        split at hm
        · rw [if_pos (by assumption)]
          rcases mem_bump.mp hm with ⟨nq, hq, rfl⟩
          exact mem_bump.mpr ⟨nq, mem_locality m2 r1 r2 (some c) _ nq hq
            (by simp at hlen; omega)
            (by rcases hw with hw | hw
                · left; simp at hw; omega
                · exact Or.inr hw), rfl⟩
        · simp at hm
      · right
        have := mem_locality (c :: m2) r1 r2 prev rest np ?hmem hlen hw
        · simpa [List.cons_append] using this
        case hmem => simpa [List.cons_append] using hm
termination_by (m.length, sizeOf atoms)

/-- Composition of the result transformer of `matchSeq_append` with one
consumed character. -/
theorem bind_bump_eq (X : List (Nat × Option Char)) (c : Char) (s2 : List Char)
    (bs : List Atom) :
    (bump X).flatMap (fun np =>
        (matchSeq ((c :: s2).drop np.1) np.2 bs).map (fun nq => (np.1 + nq.1, nq.2)))
      = bump (X.flatMap (fun np =>
        (matchSeq (s2.drop np.1) np.2 bs).map (fun nq => (np.1 + nq.1, nq.2)))) := by
  simp only [bump, List.flatMap_map, List.map_flatMap]
  refine List.flatMap_congr (fun np0 _ => ?_)
  simp only [List.drop_succ_cons, List.map_map]
  refine List.map_congr_left (fun nq _ => ?_)
  simp only [Function.comp_apply]
  refine Prod.ext ?_ rfl
  simp only
  omega

/-- Sequential decomposition: matching `as ++ bs` is matching `as`, then
matching `bs` on what remains. -/
theorem matchSeq_append (s : List Char) (prev : Option Char) (as bs : List Atom) :
    matchSeq s prev (as ++ bs) =
      (matchSeq s prev as).flatMap (fun np =>
        (matchSeq (s.drop np.1) np.2 bs).map (fun nq => (np.1 + nq.1, nq.2))) := by
  match as with
  | [] =>
    rw [List.nil_append, matchSeq_atoms_nil]
    simp
  | .wb :: as2 =>
    rw [List.cons_append, matchSeq_wb, matchSeq_wb]
    split
    · exact matchSeq_append s prev as2 bs
    · simp
  | .cls p :: as2 =>
    match s with
    | [] =>
      rw [List.cons_append, matchSeq_cls_nil, matchSeq_cls_nil]
      simp
    | c :: s2 =>
      rw [List.cons_append, matchSeq_cls_cons, matchSeq_cls_cons]
      split
      · rw [matchSeq_append s2 (some c) as2 bs, bind_bump_eq]
      · simp
  | .rep g (l+1) hi hd body :: as2 =>
    match s with
    | [] =>
      rw [List.cons_append, matchSeq_repS_nil, matchSeq_repS_nil]
      simp
    | c :: s2 =>
      rw [List.cons_append, matchSeq_repS_cons, matchSeq_repS_cons]
      split
      · rw [show body ++ .rep g l (hi.map (· - 1)) hd body :: (as2 ++ bs)
            = (body ++ .rep g l (hi.map (· - 1)) hd body :: as2) ++ bs by
          rw [List.append_assoc, List.cons_append]]
        rw [matchSeq_append s2 (some c) _ bs, bind_bump_eq]
      · simp
  | .rep g 0 (some 0) hd body :: as2 =>
    rw [List.cons_append, matchSeq_rep00, matchSeq_rep00]
    exact matchSeq_append s prev as2 bs
  | .rep g 0 none hd body :: as2 =>
    match s with
    | [] =>
      rw [List.cons_append, matchSeq_rep0_none_nil, matchSeq_rep0_none_nil]
      exact matchSeq_append [] prev as2 bs
    | c :: s2 =>
      rw [List.cons_append, matchSeq_rep0_none_cons, matchSeq_rep0_none_cons]
      have hmore : (if hd c then
            bump (matchSeq s2 (some c)
              (body ++ .rep g 0 none hd body :: (as2 ++ bs)))
          else []) =
          (if hd c then
            bump (matchSeq s2 (some c) (body ++ .rep g 0 none hd body :: as2))
          else []).flatMap (fun np =>
            (matchSeq ((c :: s2).drop np.1) np.2 bs).map
              (fun nq => (np.1 + nq.1, nq.2))) := by
        split
        · rw [show body ++ .rep g 0 none hd body :: (as2 ++ bs)
              = (body ++ .rep g 0 none hd body :: as2) ++ bs by
            rw [List.append_assoc, List.cons_append]]
          rw [matchSeq_append s2 (some c) _ bs, bind_bump_eq]
        · simp
      have hstop : matchSeq (c :: s2) prev (as2 ++ bs) =
          (matchSeq (c :: s2) prev as2).flatMap (fun np =>
            (matchSeq ((c :: s2).drop np.1) np.2 bs).map
              (fun nq => (np.1 + nq.1, nq.2))) :=
        matchSeq_append (c :: s2) prev as2 bs
      split
      · rw [List.flatMap_append, hmore, hstop]
      · rw [List.flatMap_append, hmore, hstop]
  | .rep g 0 (some (k+1)) hd body :: as2 =>
    match s with
    | [] =>
      rw [List.cons_append, matchSeq_rep0S_nil, matchSeq_rep0S_nil]
      exact matchSeq_append [] prev as2 bs
    | c :: s2 =>
      rw [List.cons_append, matchSeq_rep0S_cons, matchSeq_rep0S_cons]
      have hmore : (if hd c then
            bump (matchSeq s2 (some c)
              (body ++ .rep g 0 (some k) hd body :: (as2 ++ bs)))
          else []) =
          (if hd c then
            bump (matchSeq s2 (some c) (body ++ .rep g 0 (some k) hd body :: as2))
          else []).flatMap (fun np =>
            (matchSeq ((c :: s2).drop np.1) np.2 bs).map
              (fun nq => (np.1 + nq.1, nq.2))) := by
        split
        · rw [show body ++ .rep g 0 (some k) hd body :: (as2 ++ bs)
              = (body ++ .rep g 0 (some k) hd body :: as2) ++ bs by
            rw [List.append_assoc, List.cons_append]]
          rw [matchSeq_append s2 (some c) _ bs, bind_bump_eq]
        · simp
      have hstop : matchSeq (c :: s2) prev (as2 ++ bs) =
          (matchSeq (c :: s2) prev as2).flatMap (fun np =>
            (matchSeq ((c :: s2).drop np.1) np.2 bs).map
              (fun nq => (np.1 + nq.1, nq.2))) :=
        matchSeq_append (c :: s2) prev as2 bs
      split
      · rw [List.flatMap_append, hmore, hstop]
      · rw [List.flatMap_append, hmore, hstop]
termination_by (s.length, sizeOf as)

theorem AtomsIn_append {B : Char → Bool} {as bs : List Atom}
    (ha : AtomsIn B as) (hb : AtomsIn B bs) : AtomsIn B (as ++ bs) := by
  induction ha with
  | nil => exact hb
  | wb _ ih => exact .wb ih
  | cls himp _ ih => exact .cls himp ih
  | rep hhd hbody _ ihb ihr => exact .rep hhd hbody ihr

/-- Every character a match consumes lies in the union of the pattern's
character classes. -/
theorem mem_classes {B : Char → Bool} (s : List Char) (prev : Option Char)
    (atoms : List Atom) (np : Nat × Option Char) (hin : AtomsIn B atoms)
    (h : np ∈ matchSeq s prev atoms) : ∀ c ∈ s.take np.1, B c = true := by
  match atoms with
  | [] =>
    rw [matchSeq_atoms_nil] at h
    simp only [List.mem_singleton] at h
    subst h
    simp
  | .wb :: rest =>
    rw [matchSeq_wb] at h
    split at h
    · cases hin with
      | wb hrest => exact mem_classes s prev rest np hrest h
    · simp at h
  | .cls p :: rest =>
    match s with
    | [] => rw [matchSeq_cls_nil] at h; simp at h
    | c :: s2 =>
      rw [matchSeq_cls_cons] at h
      split at h
      · cases hin with
        | cls himp hrest =>
          rcases mem_bump.mp h with ⟨nq, hq, rfl⟩
          intro d hd2
          simp only [List.take_succ_cons, List.mem_cons] at hd2
          rcases hd2 with rfl | hd2
          · exact himp d (by assumption)
          · exact mem_classes s2 (some c) rest nq hrest hq d hd2
      · simp at h
  | .rep g (l+1) hi hd body :: rest =>
    match s with
    | [] => rw [matchSeq_repS_nil] at h; simp at h
    | c :: s2 =>
      rw [matchSeq_repS_cons] at h
      split at h
      · cases hin with
        | rep hhd hbody hrest =>
          rcases mem_bump.mp h with ⟨nq, hq, rfl⟩
          intro d hd2
          simp only [List.take_succ_cons, List.mem_cons] at hd2
          rcases hd2 with rfl | hd2
          · exact hhd d (by assumption)
          · exact mem_classes s2 (some c) _ nq
              (AtomsIn_append hbody (.rep hhd hbody hrest)) hq d hd2
      · simp at h
  | .rep g 0 (some 0) hd body :: rest =>
    rw [matchSeq_rep00] at h
    cases hin with
    | rep hhd hbody hrest => exact mem_classes s prev rest np hrest h
  | .rep g 0 none hd body :: rest =>
    match s with
    | [] =>
      rw [matchSeq_rep0_none_nil] at h
      cases hin with
      | rep hhd hbody hrest => exact mem_classes [] prev rest np hrest h
    | c :: s2 =>
      rw [matchSeq_rep0_none_cons] at h
      cases hin with
      | rep hhd hbody hrest =>
        rcases mem_ite_append_elim h with hm | hm
        · split at hm
          · rcases mem_bump.mp hm with ⟨nq, hq, rfl⟩
            intro d hd2
            simp only [List.take_succ_cons, List.mem_cons] at hd2
            rcases hd2 with rfl | hd2
            · exact hhd d (by assumption)
            · exact mem_classes s2 (some c) _ nq
                (AtomsIn_append hbody (.rep hhd hbody hrest)) hq d hd2
          · simp at hm
        · exact mem_classes (c :: s2) prev rest np hrest hm
  | .rep g 0 (some (k+1)) hd body :: rest =>
    match s with
    | [] =>
      rw [matchSeq_rep0S_nil] at h
      cases hin with
      | rep hhd hbody hrest => exact mem_classes [] prev rest np hrest h
    | c :: s2 =>
      rw [matchSeq_rep0S_cons] at h
      cases hin with
      | rep hhd hbody hrest =>
        rcases mem_ite_append_elim h with hm | hm
        · split at hm
          · rcases mem_bump.mp hm with ⟨nq, hq, rfl⟩
            intro d hd2
            simp only [List.take_succ_cons, List.mem_cons] at hd2
            rcases hd2 with rfl | hd2
            · exact hhd d (by assumption)
            · exact mem_classes s2 (some c) _ nq
                (AtomsIn_append hbody (.rep hhd hbody hrest)) hq d hd2
          · simp at hm
        · exact mem_classes (c :: s2) prev rest np hrest hm
termination_by (s.length, sizeOf atoms)

/-- Eliminate a leading word-boundary atom. -/
theorem mem_wb_elim {s : List Char} {prev : Option Char} {rest : List Atom}
    {np : Nat × Option Char} (h : np ∈ matchSeq s prev (.wb :: rest)) :
    (isWordO prev != headWord s) = true ∧ np ∈ matchSeq s prev rest := by
  rw [matchSeq_wb] at h
  split at h
  · exact ⟨by assumption, h⟩
  · simp at h

/-- Eliminate a trailing word-boundary atom. -/
theorem mem_trailing_wb {s : List Char} {prev : Option Char} {front : List Atom}
    {np : Nat × Option Char} (h : np ∈ matchSeq s prev (front ++ [.wb])) :
    np ∈ matchSeq s prev front ∧ (isWordO np.2 != headWord (s.drop np.1)) = true := by
  rw [matchSeq_append] at h
  rcases List.mem_flatMap.mp h with ⟨np0, h0, hmem⟩
  rcases List.mem_map.mp hmem with ⟨nq, hq, rfl⟩
  rw [matchSeq_wb] at hq
  split at hq
  · rw [matchSeq_atoms_nil] at hq
    simp only [List.mem_singleton] at hq
    subst hq
    simp only [Nat.add_zero]
    exact ⟨h0, by assumption⟩
  · simp at hq

/-- A match headed by a mandatory repetition starts with a character of the
repetition's head class. -/
theorem mem_repS_head {c : Char} {s2 : List Char} {prev : Option Char} {g : Bool}
    {l : Nat} {hi : Option Nat} {hd : Char → Bool} {body rest : List Atom}
    {np : Nat × Option Char}
    (h : np ∈ matchSeq (c :: s2) prev (.rep g (l+1) hi hd body :: rest)) :
    hd c = true ∧ 1 ≤ np.1 := by
  rw [matchSeq_repS_cons] at h
  split at h
  · rcases mem_bump.mp h with ⟨nq, _, rfl⟩
    exact ⟨by assumption, by simp⟩
  · simp at h

/-- A lone character-class atom consumes exactly the head character. -/
theorem mem_cls_single {s : List Char} {prev : Option Char} {p : Char → Bool}
    {np : Nat × Option Char} (h : np ∈ matchSeq s prev [.cls p]) :
    ∃ c s2, s = c :: s2 ∧ p c = true ∧ np = (1, some c) := by
  match s with
  | [] => rw [matchSeq_cls_nil] at h; simp at h
  | c :: s2 =>
    rw [matchSeq_cls_cons] at h
    split at h
    · rw [matchSeq_atoms_nil] at h
      rcases mem_bump.mp h with ⟨nq, hq, rfl⟩
      simp only [List.mem_singleton] at hq
      subst hq
      exact ⟨c, s2, rfl, by assumption, rfl⟩
    · simp at h

/-- A character sitting at an index below `n` belongs to the first `n`
characters. -/
theorem mem_take_of_drop_cons {s : List Char} {k n : Nat} {c : Char} {t : List Char}
    (hdrop : s.drop k = c :: t) (hlt : k < n) : c ∈ s.take n := by
  have hk : s[k]? = some c := by
    have := List.getElem?_drop s k 0
    rw [hdrop] at this
    simpa using this.symm
  have htake : (s.take n)[k]? = some c := by
    rw [List.getElem?_take, if_pos hlt, hk]
  obtain ⟨hlt2, he⟩ := List.getElem?_eq_some_iff.mp htake
  exact he ▸ List.getElem_mem hlt2

/-- The three patterns written with their trailing boundary split off. -/
theorem emailPattern_eq :
    emailPattern = [Atom.wb, .rep true 1 none emailLocalClass [], .cls (· == '@'),
      .rep true 1 none emailDomainClass [], .cls (· == '.'),
      .rep true 2 (some 7) tldClass []] ++ [Atom.wb] := rfl

theorem cardPattern_eq :
    cardPattern = [Atom.wb,
      .rep true 13 (some 16) digitClass [.rep false 0 none sepClass []]] ++ [Atom.wb] := rfl

theorem ssnPattern_eq :
    ssnPattern = [Atom.wb, .rep true 3 (some 3) digitClass [], .cls (· == '-'),
      .rep true 2 (some 2) digitClass [], .cls (· == '-'),
      .rep true 4 (some 4) digitClass []] ++ [Atom.wb] := rfl

theorem atomsIn_email : AtomsIn pclsEmail emailPattern :=
  .wb (.rep (fun c h => by simp [pclsEmail, h]) .nil
    (.cls (fun c h => by simp [pclsEmail, h]) (.rep (fun c h => by simp [pclsEmail, h]) .nil
      (.cls (fun c h => by simp [pclsEmail, h])
        (.rep (fun c h => by simp [pclsEmail, h]) .nil (.wb .nil))))))

theorem atomsIn_card : AtomsIn pclsCard cardPattern :=
  .wb (.rep (fun c h => by simp [pclsCard, h])
    (.rep (fun c h => by simp [pclsCard, h]) .nil .nil) (.wb .nil))

theorem atomsIn_ssn : AtomsIn pclsSsn ssnPattern :=
  .wb (.rep (fun c h => by simp [pclsSsn, h]) .nil
    (.cls (fun c h => by simp [pclsSsn, h]) (.rep (fun c h => by simp [pclsSsn, h]) .nil
      (.cls (fun c h => by simp [pclsSsn, h])
        (.rep (fun c h => by simp [pclsSsn, h]) .nil (.wb .nil))))))

/-- The head character of a nonempty prefix is among its characters. -/
theorem head_mem_take {c : Char} {s2 : List Char} {n : Nat} (h : 1 ≤ n) :
    c ∈ (c :: s2).take n := by
  match n with
  | k+1 => simp [List.take_succ_cons]

theorem patFacts_email : PatFacts emailPattern pclsEmail (· == '@') where
  one_le := by
    intro prev s np h
    obtain ⟨_, h2⟩ := mem_wb_elim h
    match s with
    | [] => rw [matchSeq_repS_nil] at h2; simp at h2
    | c :: s2 => exact (mem_repS_head h2).2
  lead_wb := fun prev s np h => (mem_wb_elim h).1
  trail_wb := by
    intro prev s np h
    rw [emailPattern_eq] at h
    exact (mem_trailing_wb h).2
  classes := fun prev s np c h hc => mem_classes s prev _ np atomsIn_email h c hc
  mandatory := by
    intro prev s np h
    have hsplit : emailPattern = [Atom.wb, .rep true 1 none emailLocalClass []] ++
        (Atom.cls (· == '@') :: [.rep true 1 none emailDomainClass [], .cls (· == '.'),
          .rep true 2 (some 7) tldClass [], .wb]) := rfl
    rw [hsplit, matchSeq_append] at h
    rcases List.mem_flatMap.mp h with ⟨np1, h1, hmem⟩
    rcases List.mem_map.mp hmem with ⟨nq, hq, rfl⟩
    cases hdrop : s.drop np1.1 with
    | nil => rw [hdrop, matchSeq_cls_nil] at hq; simp at hq
    | cons c t =>
      rw [hdrop, matchSeq_cls_cons] at hq
      split at hq
      · rcases mem_bump.mp hq with ⟨nr, hr, rfl⟩
        exact ⟨c, mem_take_of_drop_cons hdrop (by simp), by assumption⟩
      · simp at hq
  pcls_lb := by decide
  pcls_rb := by decide
  mand_marker := by decide

theorem patFacts_card : PatFacts cardPattern pclsCard digitClass where
  one_le := by
    intro prev s np h
    obtain ⟨_, h2⟩ := mem_wb_elim h
    match s with
    | [] => rw [matchSeq_repS_nil] at h2; simp at h2
    | c :: s2 => exact (mem_repS_head h2).2
  lead_wb := fun prev s np h => (mem_wb_elim h).1
  trail_wb := by
    intro prev s np h
    rw [cardPattern_eq] at h
    exact (mem_trailing_wb h).2
  classes := fun prev s np c h hc => mem_classes s prev _ np atomsIn_card h c hc
  mandatory := by
    intro prev s np h
    obtain ⟨_, h2⟩ := mem_wb_elim h
    match s with
    | [] => rw [matchSeq_repS_nil] at h2; simp at h2
    | c :: s2 =>
      obtain ⟨hdig, hone⟩ := mem_repS_head h2
      exact ⟨c, head_mem_take hone, hdig⟩
  pcls_lb := by decide
  pcls_rb := by decide
  mand_marker := by decide

theorem patFacts_ssn : PatFacts ssnPattern pclsSsn digitClass where
  one_le := by
    intro prev s np h
    obtain ⟨_, h2⟩ := mem_wb_elim h
    match s with
    | [] => rw [matchSeq_repS_nil] at h2; simp at h2
    | c :: s2 => exact (mem_repS_head h2).2
  lead_wb := fun prev s np h => (mem_wb_elim h).1
  trail_wb := by
    intro prev s np h
    rw [ssnPattern_eq] at h
    exact (mem_trailing_wb h).2
  classes := fun prev s np c h hc => mem_classes s prev _ np atomsIn_ssn h c hc
  mandatory := by
    intro prev s np h
    obtain ⟨_, h2⟩ := mem_wb_elim h
    match s with
    | [] => rw [matchSeq_repS_nil] at h2; simp at h2
    | c :: s2 =>
      obtain ⟨hdig, hone⟩ := mem_repS_head h2
      exact ⟨c, head_mem_take hone, hdig⟩
  pcls_lb := by decide
  pcls_rb := by decide
  mand_marker := by decide

/-! ## The chunk view of the substitution scan -/

theorem ctxAfter_of_ne_nil (prev : Option Char) {m : List Char} (h : m ≠ []) :
    ctxAfter prev m = m.getLast? := by
  match m with
  | c :: l =>
    obtain ⟨x, hx⟩ := Option.isSome_iff_exists.mp
      (List.getLast?_isSome.mpr (List.cons_ne_nil c l) : (c :: l).getLast?.isSome)
    simp [ctxAfter, hx]

theorem matchHere_some_mem {pat : List Atom} {prev : Option Char} {s : List Char}
    {n : Nat} (h : matchHere pat prev s = some n) :
    ∃ q, (n, q) ∈ matchSeq s prev pat := by
  rcases Option.map_eq_some'.mp h with ⟨np, hh, hfst⟩
  rcases List.head?_eq_some_iff.mp hh with ⟨t, ht⟩
  exact ⟨np.2, by rw [ht]; exact hfst ▸ List.mem_cons_self np t⟩

theorem matchHere_none {pat : List Atom} {prev : Option Char} {s : List Char}
    (h : matchHere pat prev s = none) : matchSeq s prev pat = [] := by
  unfold matchHere at h
  rcases Option.map_eq_none'.mp h with h2
  exact List.head?_eq_none_iff.mp h2

theorem sourceC_map_kC (s : List Char) : sourceC (s.map .kC) = s := by
  induction s with
  | nil => rfl
  | cons c t ih => simp [sourceC, ih]

theorem sourceC_chunksAux (pat : List Atom) (f : Nat) (prev : Option Char)
    (s : List Char) : sourceC (chunksAux pat f prev s) = s := by
  match f with
  | 0 => exact sourceC_map_kC s
  | f+1 =>
    simp only [chunksAux]
    cases hm : matchHere pat prev s with
    | none =>
      cases s with
      | nil => rfl
      | cons c s2 => simp [sourceC, sourceC_chunksAux pat f (some c) s2]
    | some n =>
      cases n with
      | zero =>
        cases s with
        | nil => simp [sourceC]
        | cons c s2 => simp [sourceC, sourceC_chunksAux pat f (some c) s2]
      | succ n =>
        simp only [sourceC, sourceC_chunksAux pat f (s.take (n+1)).getLast? (s.drop (n+1))]
        exact List.take_append_drop (n+1) s

theorem renderC_map_kC (s : List Char) : renderC (s.map .kC) = s := by
  induction s with
  | nil => rfl
  | cons c t ih => simp [renderC, ih]

/-- The chunk recording really is the substitution scan: rendering the chunks
gives `subAux`'s output. -/
theorem renderC_chunksAux (pat : List Atom) (f : Nat) (prev : Option Char)
    (s : List Char) :
    renderC (chunksAux pat f prev s) = subAux pat redactedPII f prev s := by
  match f with
  | 0 => exact renderC_map_kC s
  | f+1 =>
    simp only [chunksAux, subAux]
    cases hm : matchHere pat prev s with
    | none =>
      cases s with
      | nil => rfl
      | cons c s2 => simp [renderC, renderC_chunksAux pat f (some c) s2]
    | some n =>
      cases n with
      | zero =>
        cases s with
        | nil => simp [renderC]
        | cons c s2 => simp [renderC, renderC_chunksAux pat f (some c) s2]
      | succ n =>
        simp [renderC, renderC_chunksAux pat f (s.take (n+1)).getLast? (s.drop (n+1))]

theorem GoodChunks_map_kC (pat : List Atom) (prev : Option Char) (s : List Char) :
    GoodChunks pat prev (s.map .kC) := by
  induction s generalizing prev with
  | nil => trivial
  | cons c t ih => exact ih (some c)

/-- The scan only replaces real matches (for a pattern whose matches are
nonempty). -/
theorem GoodChunks_chunksAux (pat : List Atom)
    (hone : ∀ prev s np, np ∈ matchSeq s prev pat → 1 ≤ np.1)
    (f : Nat) (prev : Option Char) (s : List Char) :
    GoodChunks pat prev (chunksAux pat f prev s) := by
  match f with
  | 0 => exact GoodChunks_map_kC pat prev s
  | f+1 =>
    simp only [chunksAux]
    cases hm : matchHere pat prev s with
    | none =>
      cases s with
      | nil => trivial
      | cons c s2 => exact GoodChunks_chunksAux pat hone f (some c) s2
    | some n =>
      cases n with
      | zero =>
        exfalso
        obtain ⟨q, hq⟩ := matchHere_some_mem hm
        have := hone prev s (0, q) hq
        simp at this
      | succ n =>
        obtain ⟨q, hq⟩ := matchHere_some_mem hm
        have hlen : n + 1 ≤ s.length := mem_le_length s prev pat (n+1, q) hq
        have htklen : (s.take (n+1)).length = n + 1 := by
          rw [List.length_take]
          omega
        have htkne : s.take (n+1) ≠ [] := by
          intro hemp
          rw [hemp] at htklen
          simp at htklen
        refine ⟨⟨q, ?_⟩, htkne, ?_⟩
        · rw [htklen, sourceC_chunksAux, List.take_append_drop]
          exact hq
        · rw [ctxAfter_of_ne_nil prev htkne]
          exact GoodChunks_chunksAux pat hone f (s.take (n+1)).getLast? (s.drop (n+1))

theorem render_decomp (chunks : List Chunk) :
    renderC chunks = keptRun chunks ++ renderC (afterRun chunks) := by
  induction chunks with
  | nil => rfl
  | cons ch t ih =>
    cases ch with
    | kC c => simp [renderC, keptRun, afterRun, ih]
    | rC m => simp [keptRun, afterRun]

theorem source_decomp (chunks : List Chunk) :
    sourceC chunks = keptRun chunks ++ sourceC (afterRun chunks) := by
  induction chunks with
  | nil => rfl
  | cons ch t ih =>
    cases ch with
    | kC c => simp [sourceC, keptRun, afterRun, ih]
    | rC m => simp [keptRun, afterRun]

theorem afterRun_shape (chunks : List Chunk) :
    afterRun chunks = [] ∨ ∃ m t, afterRun chunks = .rC m :: t := by
  induction chunks with
  | nil => exact Or.inl rfl
  | cons ch t ih =>
    cases ch with
    | kC c => simpa [afterRun] using ih
    | rC m => exact Or.inr ⟨m, t, rfl⟩

theorem GoodChunks_afterRun {pat : List Atom} {ctx : Option Char} {chunks : List Chunk}
    (h : GoodChunks pat ctx chunks) :
    GoodChunks pat (ctxAfter ctx (keptRun chunks)) (afterRun chunks) := by
  induction chunks generalizing ctx with
  | nil => trivial
  | cons ch t ih =>
    cases ch with
    | kC c =>
      have := ih (show GoodChunks pat (some c) t from h)
      simpa [keptRun, afterRun, ctxAfter_cons] using this
    | rC m => simpa [keptRun, afterRun, ctxAfter_nil] using h

/-! ## Clean strings -/

theorem cleanB_cons (pat : List Atom) (prev : Option Char) (c : Char) (t : List Char) :
    cleanB pat prev (c :: t) =
      ((matchSeq (c :: t) prev pat).isEmpty && cleanB pat (some c) t) := rfl

theorem cleanB_nil (pat : List Atom) (prev : Option Char) :
    cleanB pat prev [] = (matchSeq [] prev pat).isEmpty := by
  unfold cleanB
  simp

theorem cleanB_noStart {pat : List Atom} {prev : Option Char} {s : List Char}
    (h : cleanB pat prev s = true) : matchSeq s prev pat = [] := by
  cases s with
  | nil =>
    rw [cleanB_nil] at h
    exact List.isEmpty_iff.mp h
  | cons c t =>
    rw [cleanB_cons] at h
    exact List.isEmpty_iff.mp (Bool.and_elim_left h)

theorem cleanB_tail {pat : List Atom} {prev : Option Char} {c : Char} {t : List Char}
    (h : cleanB pat prev (c :: t) = true) : cleanB pat (some c) t = true := by
  rw [cleanB_cons] at h
  exact Bool.and_elim_right h

theorem cleanB_drop {pat : List Atom} (n : Nat) (prev : Option Char) (s : List Char)
    (h : cleanB pat prev s = true) :
    cleanB pat (ctxAfter prev (s.take n)) (s.drop n) = true := by
  match n, s with
  | 0, s => simpa [ctxAfter_nil] using h
  | n+1, [] => simpa [ctxAfter_nil] using h
  | n+1, c :: s2 =>
    have h2 := cleanB_tail h
    have := cleanB_drop n (some c) s2 h2
    simpa [List.take_succ_cons, ctxAfter_cons] using this

/-- On a clean string the substitution is the identity. -/
theorem subAux_of_cleanB {pat : List Atom} (repl : List Char) (f : Nat)
    (prev : Option Char) (s : List Char) (h : cleanB pat prev s = true) :
    subAux pat repl f prev s = s := by
  match f with
  | 0 => rfl
  | f+1 =>
    have hnone : matchHere pat prev s = none := by
      unfold matchHere
      rw [cleanB_noStart h]
      rfl
    simp only [subAux, hnone]
    cases s with
    | nil => rfl
    | cons c s2 =>
      show c :: subAux pat repl f (some c) s2 = c :: s2
      rw [subAux_of_cleanB repl f (some c) s2 (cleanB_tail h)]

/-- No match of a pattern with the marker-avoiding facts can start inside the
marker: once inside, a match would have to stay within `"REDACTED PII"` (which
lacks the pattern's mandatory character) or cross the closing bracket (which
lies outside the pattern's classes). -/
theorem marker_noStart {Q : List Atom} {pcls mand : Char → Bool}
    (F : PatFacts Q pcls mand) (k : Nat) (hk : k < redactedPII.length)
    (t : List Char) (ctx : Option Char) :
    matchSeq (redactedPII.drop k ++ t) ctx Q = [] := by
  refine List.eq_nil_iff_forall_not_mem.mpr (fun np hnp => ?_)
  by_cases hle : np.1 ≤ (redactedPII.drop k).length
  · have htake : (redactedPII.drop k ++ t).take np.1 = (redactedPII.drop k).take np.1 :=
      List.take_append_of_le_length hle
    obtain ⟨c, hc, hcm⟩ := F.mandatory _ _ _ hnp
    rw [htake] at hc
    have hcm2 : c ∈ redactedPII := List.mem_of_mem_drop (List.mem_of_mem_take hc)
    rw [F.mand_marker c hcm2] at hcm
    cases hcm
  · push_neg at hle
    have hk14 : k < 14 := by
      have h14 : redactedPII.length = 14 := by decide
      omega
    have hrb : (']' : Char) ∈ redactedPII.drop k := by
      interval_cases k <;> decide
    have hrbc : (']' : Char) ∈ (redactedPII.drop k ++ t).take np.1 := by
      rw [List.take_append_eq_append_take,
        List.take_of_length_le (Nat.le_of_lt hle)]
      exact List.mem_append_left _ hrb
    have := F.classes _ _ _ ']' hnp hrbc
    rw [F.pcls_rb] at this
    cases this

/-- Transfer: a (nonempty) match of `Q` against the rendered output of a good
chunk list, starting at its very front, yields a match of `Q` against the
source at the same position.  The match in the output cannot touch a marker, so
its text lies in the leading kept run, which the source shares; the only
context that can differ beyond it is the wordness of the next character, and
the word boundaries of the replaced match pin it down. -/
theorem transfer_front {P Q : List Atom} {pclsP mandP pclsQ mandQ : Char → Bool}
    (FP : PatFacts P pclsP mandP) (FQ : PatFacts Q pclsQ mandQ)
    (chunks : List Chunk) (ctxS : Option Char) (hg : GoodChunks P ctxS chunks)
    (np : Nat × Option Char) (hnp : np ∈ matchSeq (renderC chunks) ctxS Q) :
    np ∈ matchSeq (sourceC chunks) ctxS Q := by
  have hone := FQ.one_le _ _ _ hnp
  have hlen := mem_le_length _ _ _ _ hnp
  have hrender := render_decomp chunks
  have hsource := source_decomp chunks
  rw [hrender] at hnp hlen
  rw [hsource]
  by_cases hle : np.1 ≤ (keptRun chunks).length
  · -- the consumed text lies inside the kept run
    refine mem_locality (keptRun chunks) (renderC (afterRun chunks))
      (sourceC (afterRun chunks)) ctxS Q np hnp hle ?_
    rcases Nat.lt_or_ge np.1 (keptRun chunks).length with hlt | hge
    · exact Or.inl hlt
    · -- the whole kept run is consumed; compare the next character's wordness
      have hnp1 : np.1 = (keptRun chunks).length := Nat.le_antisymm hle hge
      right
      rcases afterRun_shape chunks with haft | ⟨m1, t1, haft⟩
      · rw [haft]; rfl
      · -- the word boundaries at the junction agree
        have hga := GoodChunks_afterRun hg
        rw [haft] at hga
        obtain ⟨⟨q1, hq1⟩, hm1ne, _⟩ := hga
        -- trailing boundary of the output match
        have htrail := FQ.trail_wb _ _ _ hnp
        have hdrop : (keptRun chunks ++ renderC (afterRun chunks)).drop np.1
            = renderC (afterRun chunks) := by
          rw [hnp1, List.drop_append_of_le_length (Nat.le_refl _)]
          simp
        rw [hdrop, haft] at htrail
        have hhead_out : headWord (renderC (Chunk.rC m1 :: t1)) = false := by
          show headWord (redactedPII ++ renderC t1) = false
          rfl
        rw [hhead_out] at htrail
        have hword2 : isWordO np.2 = true := by
          cases hiw : isWordO np.2
          · rw [hiw] at htrail; simp at htrail
          · rfl
        -- np.2 is the last character of the kept run
        have hsnd := mem_snd _ _ _ _ hnp
        have htk : (keptRun chunks ++ renderC (afterRun chunks)).take np.1
            = keptRun chunks := by
          rw [hnp1, List.take_append_of_le_length (Nat.le_refl _),
            List.take_of_length_le (Nat.le_refl _)]
        rw [htk] at hsnd
        -- leading boundary of the replaced match m1
        have hlead := FP.lead_wb _ _ _ hq1
        rw [← hsnd] at hlead
        rw [hword2] at hlead
        have hhead_src : headWord (m1 ++ sourceC t1) = false := by
          cases hh : headWord (m1 ++ sourceC t1)
          · rfl
          · rw [hh] at hlead; simp at hlead
        rw [haft]
        have hout : headWord (redactedPII ++ renderC t1) = false := rfl
        show headWord (redactedPII ++ renderC t1) = headWord (sourceC (Chunk.rC m1 :: t1))
        rw [hout]
        show false = headWord (m1 ++ sourceC t1)
        exact hhead_src.symm
  · -- impossible: the match would consume the opening bracket of a marker
    exfalso
    push_neg at hle
    rcases afterRun_shape chunks with haft | ⟨m1, t1, haft⟩
    · rw [haft] at hnp hlen
      simp only [renderC, List.append_nil] at hnp hlen
      omega
    · have hlb : ('[' : Char) ∈
          (keptRun chunks ++ renderC (afterRun chunks)).take np.1 := by
        rw [List.take_append_eq_append_take,
          List.take_of_length_le (Nat.le_of_lt hle), haft]
        refine List.mem_append_right _ ?_
        show ('[' : Char) ∈ (redactedPII ++ renderC t1).take (np.1 - (keptRun chunks).length)
        have h1 : 1 ≤ np.1 - (keptRun chunks).length := by omega
        rw [show redactedPII ++ renderC t1 = '[' :: ("REDACTED PII]".data ++ renderC t1)
          from rfl]
        exact head_mem_take h1
      have := FQ.classes _ _ _ '[' hnp hlb
      rw [FQ.pcls_lb] at this
      cases this

/-- A pattern with nonempty matches has no match on the empty string. -/
theorem matchSeq_nil_empty {Q : List Atom} {pcls mand : Char → Bool}
    (F : PatFacts Q pcls mand) (prev : Option Char) : matchSeq [] prev Q = [] := by
  refine List.eq_nil_iff_forall_not_mem.mpr (fun np hnp => ?_)
  have h1 := F.one_le _ _ _ hnp
  have h2 := mem_le_length _ _ _ _ hnp
  simp only [List.length_nil] at h2
  omega

/-- If the rendered output starts with a word character, so does the source
(markers start with the non-word `[`). -/
theorem headWord_render_word {chunks : List Chunk}
    (h : headWord (renderC chunks) = true) : headWord (sourceC chunks) = true := by
  cases chunks with
  | nil => exact absurd h (by simp [renderC, headWord])
  | cons ch t =>
    cases ch with
    | kC c => exact h
    | rC m =>
      exfalso
      have hfalse : headWord (renderC (.rC m :: t)) = false := rfl
      rw [hfalse] at h
      cases h

/-- Prepending a string at whose every position the pattern is banned preserves
cleanliness. -/
theorem cleanB_append_of_banned {Q : List Atom} (t : List Char) :
    ∀ (mk : List Char) (ctx : Option Char),
    (∀ k ctx2, k < mk.length → matchSeq (mk.drop k ++ t) ctx2 Q = []) →
    cleanB Q (ctxAfter ctx mk) t = true →
    cleanB Q ctx (mk ++ t) = true
  | [], ctx, _, htail => by simpa [ctxAfter_nil] using htail
  | c :: mk2, ctx, hsub, htail => by
    rw [List.cons_append, cleanB_cons]
    rw [Bool.and_eq_true]
    constructor
    · rw [List.isEmpty_iff]
      have := hsub 0 ctx (by simp)
      simpa using this
    · refine cleanB_append_of_banned t mk2 (some c) ?_ ?_
      · intro k ctx2 hk
        have := hsub (k+1) ctx2 (by simpa using Nat.succ_lt_succ hk)
        simpa using this
      · simpa [ctxAfter_cons] using htail

/-- The master induction: after one substitution scan of `P`, the output is
clean for `Q`, provided `Q` is `P` itself or the input was already `Q`-clean. -/
theorem clean_after_scan {P Q : List Atom} {pclsP mandP pclsQ mandQ : Char → Bool}
    (FP : PatFacts P pclsP mandP) (FQ : PatFacts Q pclsQ mandQ)
    (f : Nat) (prev : Option Char) (s : List Char) (hf : s.length < f)
    (hQ : Q = P ∨ cleanB Q prev s = true) :
    cleanB Q prev (renderC (chunksAux P f prev s)) = true := by
  match f, hf with
  | 0, hf => omega
  | f+1, hf =>
    simp only [chunksAux]
    cases hm : matchHere P prev s with
    | none =>
      cases s with
      | nil =>
        show cleanB Q prev (renderC []) = true
        rw [show renderC [] = [] from rfl, cleanB_nil, List.isEmpty_iff]
        exact matchSeq_nil_empty FQ prev
      | cons c s2 =>
        show cleanB Q prev (renderC (.kC c :: chunksAux P f (some c) s2)) = true
        rw [show renderC (.kC c :: chunksAux P f (some c) s2)
            = c :: renderC (chunksAux P f (some c) s2) from rfl, cleanB_cons]
        rw [Bool.and_eq_true]
        constructor
        · rw [List.isEmpty_iff]
          refine List.eq_nil_iff_forall_not_mem.mpr (fun np hnp => ?_)
          have hg : GoodChunks P prev (.kC c :: chunksAux P f (some c) s2) :=
            GoodChunks_chunksAux P FP.one_le f (some c) s2
          have htr := transfer_front FP FQ (.kC c :: chunksAux P f (some c) s2) prev hg
            np hnp
          rw [show sourceC (.kC c :: chunksAux P f (some c) s2)
              = c :: sourceC (chunksAux P f (some c) s2) from rfl,
            sourceC_chunksAux] at htr
          rcases hQ with rfl | hcl
          · rw [matchHere_none hm] at htr
            cases htr
          · rw [cleanB_noStart hcl] at htr
            cases htr
        · refine clean_after_scan FP FQ f (some c) s2 (by simp at hf; omega) ?_
          rcases hQ with rfl | hcl
          · exact Or.inl rfl
          · exact Or.inr (cleanB_tail hcl)
    | some n =>
      cases n with
      | zero =>
        exfalso
        obtain ⟨q, hq⟩ := matchHere_some_mem hm
        have := FP.one_le _ _ _ hq
        simp at this
      | succ n =>
        obtain ⟨q, hq⟩ := matchHere_some_mem hm
        have hlen : n + 1 ≤ s.length := mem_le_length _ _ _ _ hq
        have htkne : s.take (n+1) ≠ [] := by
          intro hemp
          have h0 := congrArg List.length hemp
          rw [List.length_take] at h0
          simp only [List.length_nil] at h0
          omega
        have hctxS : ctxAfter prev (s.take (n+1)) = (s.take (n+1)).getLast? :=
          ctxAfter_of_ne_nil prev htkne
        have hIH : cleanB Q (s.take (n+1)).getLast?
            (renderC (chunksAux P f (s.take (n+1)).getLast? (s.drop (n+1)))) = true := by
          refine clean_after_scan FP FQ f _ _ (by rw [List.length_drop]; omega) ?_
          rcases hQ with rfl | hcl
          · exact Or.inl rfl
          · right
            have := cleanB_drop (n+1) prev s hcl
            rwa [hctxS] at this
        show cleanB Q prev (renderC (.rC (s.take (n+1))
          :: chunksAux P f (s.take (n+1)).getLast? (s.drop (n+1)))) = true
        rw [show renderC (.rC (s.take (n+1))
            :: chunksAux P f (s.take (n+1)).getLast? (s.drop (n+1)))
            = redactedPII ++ renderC (chunksAux P f (s.take (n+1)).getLast? (s.drop (n+1)))
          from rfl]
        refine cleanB_append_of_banned _ redactedPII prev
          (fun k ctx2 hk => marker_noStart FQ k hk _ ctx2) ?_
        have hctx : ctxAfter prev redactedPII = some ']' := by
          show (match redactedPII.getLast? with
            | some c => some c
            | none => prev) = some ']'
          rw [show redactedPII.getLast? = some ']' by decide]
        rw [hctx]
        -- the junction: cleanliness just after the marker
        cases hout : renderC (chunksAux P f (s.take (n+1)).getLast? (s.drop (n+1))) with
        | nil =>
          rw [cleanB_nil, List.isEmpty_iff]
          exact matchSeq_nil_empty FQ (some ']')
        | cons c2 t2 =>
          rw [cleanB_cons]
          rw [Bool.and_eq_true]
          constructor
          · rw [List.isEmpty_iff]
            refine List.eq_nil_iff_forall_not_mem.mpr (fun np hnp => ?_)
            have hone := FQ.one_le _ _ _ hnp
            have hlead := FQ.lead_wb _ _ _ hnp
            cases hc2 : isWordChar c2 with
            | false =>
              rw [show isWordO (some ']') = false from rfl,
                show headWord (c2 :: t2) = isWordChar c2 from rfl, hc2] at hlead
              simp at hlead
            | true =>
              -- the source's next character is a word character too,
              -- so the replaced match's trailing boundary forces a non-word
              -- last consumed character
              have hsrcw : headWord (s.drop (n+1)) = true := by
                have hw1 : headWord (renderC (chunksAux P f (s.take (n+1)).getLast?
                    (s.drop (n+1)))) = true := by
                  rw [hout]
                  show isWordChar c2 = true
                  exact hc2
                have := headWord_render_word hw1
                rwa [sourceC_chunksAux] at this
              have htrail : (isWordO q != headWord (s.drop (n+1))) = true :=
                FP.trail_wb _ _ _ hq
              have hsnd : q = ctxAfter prev (s.take (n+1)) := mem_snd _ _ _ _ hq
              rw [hctxS] at hsnd
              rw [hsnd, hsrcw] at htrail
              have hqw : isWordO ((s.take (n+1)).getLast?) = false := by
                cases hx : isWordO ((s.take (n+1)).getLast?)
                · rfl
                · rw [hx] at htrail
                  simp at htrail
              have hcongr := mem_prev_congr (c2 :: t2) (some ']')
                ((s.take (n+1)).getLast?) Q np hnp hone
                (by rw [show isWordO (some ']') = false from rfl, hqw])
              have hempty := cleanB_noStart (hout ▸ hIH)
              rw [hempty] at hcongr
              cases hcongr
          · exact cleanB_tail (hout ▸ hIH)
termination_by f

/-- After one substitution pass of `P`, the result is clean for `Q` whenever
`Q` is `P` itself or the input was already `Q`-clean. -/
theorem clean_pysub {P Q : List Atom} {pclsP mandP pclsQ mandQ : Char → Bool}
    (FP : PatFacts P pclsP mandP) (FQ : PatFacts Q pclsQ mandQ) (s : List Char)
    (hQ : Q = P ∨ cleanB Q none s = true) :
    cleanB Q none (pysub P redactedPII s) = true := by
  unfold pysub
  rw [← renderC_chunksAux]
  exact clean_after_scan FP FQ (s.length + 1) none s (by omega) hQ

/-- On a clean string the substitution is the identity. -/
theorem pysub_of_cleanB {pat : List Atom} {s : List Char}
    (h : cleanB pat none s = true) : pysub pat redactedPII s = s :=
  subAux_of_cleanB redactedPII (s.length + 1) none s h

/-- The three-pass scrub yields a string clean for all three patterns, so a
second scrub is the identity. -/
theorem scrubChars_idem (t : List Char) : scrubChars (scrubChars t) = scrubChars t := by
  have he1 : cleanB emailPattern none (pysub emailPattern redactedPII t) = true :=
    clean_pysub patFacts_email patFacts_email t (Or.inl rfl)
  have he2 : cleanB emailPattern none
      (pysub cardPattern redactedPII (pysub emailPattern redactedPII t)) = true :=
    clean_pysub patFacts_card patFacts_email _ (Or.inr he1)
  have hc1 : cleanB cardPattern none
      (pysub cardPattern redactedPII (pysub emailPattern redactedPII t)) = true :=
    clean_pysub patFacts_card patFacts_card _ (Or.inl rfl)
  have he3 : cleanB emailPattern none (scrubChars t) = true :=
    clean_pysub patFacts_ssn patFacts_email _ (Or.inr he2)
  have hc2 : cleanB cardPattern none (scrubChars t) = true :=
    clean_pysub patFacts_ssn patFacts_card _ (Or.inr hc1)
  have hs1 : cleanB ssnPattern none (scrubChars t) = true :=
    clean_pysub patFacts_ssn patFacts_ssn _ (Or.inl rfl)
  show pysub ssnPattern redactedPII (pysub cardPattern redactedPII
    (pysub emailPattern redactedPII (scrubChars t))) = scrubChars t
  rw [pysub_of_cleanB he3, pysub_of_cleanB hc2, pysub_of_cleanB hs1]

/-- One dict entry triggers the loop's write-back and flag exactly when it is a
non-skipped string changed by the substitution. -/
theorem entryScrubbed_iff (kv : String × AttrValue) :
    entryScrubbed kv = true ↔
      skip_keys.contains kv.1 = false ∧ ∃ s, kv.2 = AttrValue.str s ∧ scrub s ≠ s := by
  obtain ⟨k, v⟩ := kv
  cases v with
  | str s =>
    simp [entryScrubbed, Bool.and_eq_true, Bool.not_eq_true', bne_iff_ne]
  | int n => simp [entryScrubbed]
  | float x => simp [entryScrubbed]
  | bool b => simp [entryScrubbed]

/-! ## Claim theorems -/

/-- C2: whenever a span carries `"payment.amount"` at end time, the synchronous
end hook `SecurityAndContextProcessor.on_end` replaces its value with the
constant `"[REDACTED]"` and sets the audit attribute
`"security.pii_scrubbed" := true`. -/
theorem C2_payment_amount_redacted_on_end (sp : Span) (m : AttrMap) (v : AttrValue)
    (hattrs : sp.attrs = some m) (hv : lookupA m "payment.amount" = some v) :
    attrVal (SecurityAndContextProcessor.on_end sp) "payment.amount"
      = some (.str "[REDACTED]")
    ∧ attrVal (SecurityAndContextProcessor.on_end sp) "security.pii_scrubbed"
      = some (.bool true) := by
  cases m with
  | nil => simp [lookupA] at hv
  | cons kv m2 =>
    have hset : SecurityAndContextProcessor.on_end sp =
        { sp with attrs := some (setAttr (setAttr (kv :: m2) "payment.amount"
          (.str "[REDACTED]")) "security.pii_scrubbed" (.bool true)) } := by
      simp [SecurityAndContextProcessor.on_end, hattrs, hv]
    rw [hset]
    constructor
    · simp only [attrVal, Option.getD_some]
      rw [lookupA_setAttr_ne _ _ _ _ (by decide), lookupA_setAttr_self]
    · simp only [attrVal, Option.getD_some]
      rw [lookupA_setAttr_self]

/-- C2 witness: the payment span. -/
theorem C2_payment_amount_redacted_on_end_witness :
    attrVal (SecurityAndContextProcessor.on_end samplePaymentSpan) "payment.amount"
      = some (.str "[REDACTED]")
    ∧ attrVal (SecurityAndContextProcessor.on_end samplePaymentSpan) "security.pii_scrubbed"
      = some (.bool true) :=
  C2_payment_amount_redacted_on_end samplePaymentSpan
    [("payment.amount", .int 250), ("user.id", .str "user_100")] (.int 250) rfl (by decide)

/-- C3: the exporter never alters an attribute whose key lies in the skip-set,
whatever its value. -/
theorem C3_skip_set_immunity (sp : Span) (key : String)
    (hskip : skip_keys.contains key = true) :
    attrVal (exportSpan sp) key = attrVal sp key := by
  cases hattrs : sp.attrs with
  | none => simp [exportSpan, hattrs]
  | some m =>
    cases m with
    | nil => simp [exportSpan, hattrs]
    | cons kv m2 =>
      have haud : auditKey ≠ key := by
        intro he
        rw [← he] at hskip
        have hf : skip_keys.contains auditKey = false := by decide
        rw [hf] at hskip; cases hskip
      have hframe := exportLoop_frame (kv :: m2) (kv :: m2) false key
        (fun s _ => Or.inl hskip)
      have hspan : (exportSpan sp).attrs = some
          (if (exportLoop (kv :: m2) (kv :: m2) false).2 then
            setAttr (exportLoop (kv :: m2) (kv :: m2) false).1 auditKey (.bool true)
          else (exportLoop (kv :: m2) (kv :: m2) false).1) := by
        simp [exportSpan, hattrs]
      simp only [attrVal, hspan, hattrs, Option.getD_some]
      cases (exportLoop (kv :: m2) (kv :: m2) false).2 with
      | true =>
        rw [if_pos rfl, lookupA_setAttr_ne _ _ _ _ haud, hframe]
      | false =>
        rw [if_neg Bool.false_ne_true, hframe]

/-- C3 witness: a skip-set key whose value is itself email-shaped survives
export unchanged. -/
theorem C3_skip_set_immunity_witness :
    attrVal (exportSpan sampleMetaSpan) "meta.trace_id" = attrVal sampleMetaSpan "meta.trace_id" :=
  C3_skip_set_immunity sampleMetaSpan "meta.trace_id" (by decide)

/-- C4: `export` raises the per-span audit attribute
`"security.async_regex_scrubbed" := true` precisely when the loop's flag is set;
and the flag is set if and only if some attribute value of the span was changed
by the pattern substitution (a non-skipped string value that scrubbing alters). -/
theorem C4_audit_flag_iff_changed (sp : Span) (m : AttrMap)
    (hattrs : sp.attrs = some m) (hne : m ≠ []) :
    ((exportSpan sp).attrs = some
      (if (exportLoop m m false).2 then
        setAttr (exportLoop m m false).1 auditKey (.bool true)
       else (exportLoop m m false).1))
    ∧ ((exportLoop m m false).2 = true ↔
        ∃ kv ∈ m, skip_keys.contains kv.1 = false
          ∧ ∃ s, kv.2 = AttrValue.str s ∧ scrub s ≠ s) := by
  constructor
  · obtain ⟨kv, m2, rfl⟩ := List.exists_cons_of_ne_nil hne
    simp [exportSpan, hattrs]
  · rw [exportLoop_flag m m false]
    simp only [Bool.false_or, List.any_eq_true]
    constructor
    · rintro ⟨kv, hkv, hES⟩
      exact ⟨kv, hkv, (entryScrubbed_iff kv).mp hES⟩
    · rintro ⟨kv, hkv, hrest⟩
      exact ⟨kv, hkv, (entryScrubbed_iff kv).mpr hrest⟩

/-- C4 witness: a span with one scrubbable email attribute. -/
theorem C4_audit_flag_iff_changed_witness :
    ((exportSpan sampleEmailSpan).attrs = some
      (if (exportLoop [("x", .str "a@b.com")] [("x", .str "a@b.com")] false).2 then
        setAttr (exportLoop [("x", .str "a@b.com")] [("x", .str "a@b.com")] false).1
          auditKey (.bool true)
       else (exportLoop [("x", .str "a@b.com")] [("x", .str "a@b.com")] false).1))
    ∧ ((exportLoop [("x", .str "a@b.com")] [("x", .str "a@b.com")] false).2 = true ↔
        ∃ kv ∈ [(("x" : String), AttrValue.str "a@b.com")],
          skip_keys.contains kv.1 = false
          ∧ ∃ s, kv.2 = AttrValue.str s ∧ scrub s ≠ s) :=
  C4_audit_flag_iff_changed sampleEmailSpan [("x", .str "a@b.com")] rfl (by decide)

/-- C5: the scrub transformation — substituting the email, card and SSN
patterns in sequence, each by `"[REDACTED PII]"` — is idempotent: scrubbing an
already-scrubbed value is a no-op. -/
theorem C5_scrub_idempotent (s : String) : scrub (scrub s) = scrub s := by
  unfold scrub
  rw [show (String.mk (scrubChars s.data)).data = scrubChars s.data from rfl]
  rw [scrubChars_idem]

/-- C6: the synchronous start hook writes the formatted trace id under
`"meta.trace_id"` and the formatted span id under `"meta.span_id"`, and writes
`"meta.parent_id"` (with the formatted parent span id) exactly when the span has
a parent; `ContextInjectionProcessor.on_start` is the same operation. -/
theorem C6_on_start_enrichment (sp : Span) :
    attrVal (SecurityAndContextProcessor.on_start sp) "meta.trace_id"
      = some (.str (format_trace_id sp.ctx.trace_id))
    ∧ attrVal (SecurityAndContextProcessor.on_start sp) "meta.span_id"
      = some (.str (format_span_id sp.ctx.span_id))
    ∧ attrVal (SecurityAndContextProcessor.on_start sp) "meta.parent_id"
      = (match sp.parent with
         | some p => some (.str (format_span_id p.span_id))
         | none => attrVal sp "meta.parent_id")
    ∧ ContextInjectionProcessor.on_start sp = SecurityAndContextProcessor.on_start sp := by
  refine ⟨?_, ?_, ?_, rfl⟩ <;>
    cases hp : sp.parent with
  | none =>
    simp only [SecurityAndContextProcessor.on_start, Span.set_attribute, hp, attrVal,
      Option.getD_some]
    first
    | rw [lookupA_setAttr_ne _ _ _ _ (by decide), lookupA_setAttr_self]
    | rw [lookupA_setAttr_self]
    | rw [lookupA_setAttr_ne _ _ _ _ (by decide), lookupA_setAttr_ne _ _ _ _ (by decide)]
  | some p =>
    simp only [SecurityAndContextProcessor.on_start, Span.set_attribute, hp, attrVal,
      Option.getD_some]
    first
    | rw [lookupA_setAttr_ne _ _ _ _ (by decide), lookupA_setAttr_ne _ _ _ _ (by decide),
        lookupA_setAttr_self]
    | rw [lookupA_setAttr_ne _ _ _ _ (by decide), lookupA_setAttr_self]
    | rw [lookupA_setAttr_self]

/-- C7: `export` hands the wrapped exporter the same batch it scrubbed — same
count, same order, span by span — and returns exactly the wrapped exporter's
result. -/
theorem C7_delegation_structure (inner : List Span → SpanExportResult) (spans : List Span) :
    (exportBatch inner spans).delegated = spans.map exportSpan
    ∧ (exportBatch inner spans).delegated.length = spans.length
    ∧ (exportBatch inner spans).result = inner ((exportBatch inner spans).delegated)
    ∧ ∀ i : Nat, (exportBatch inner spans).delegated[i]? = spans[i]?.map exportSpan := by
  refine ⟨rfl, by simp [exportBatch], rfl, fun i => ?_⟩
  simp [exportBatch]

/-- C9: enqueueing into the full queue drops the incoming element and counts it,
leaving the stored elements untouched; and the capacity-2 scenario A, B, C
accepts A and B, drops C, and ends with drop counter 1. -/
theorem C9_overflow_drops (q : BoundedQueue String) (a : String)
    (hfull : q.items.length = q.capacity) :
    ((q.enqueue a).2 = false ∧ (q.enqueue a).1.items = q.items
      ∧ (q.enqueue a).1.dropped = q.dropped + 1)
    ∧ (let r1 := (⟨2, [], 0⟩ : BoundedQueue String).enqueue "A"
       let r2 := r1.1.enqueue "B"
       let r3 := r2.1.enqueue "C"
       r1.2 = true ∧ r2.2 = true ∧ r3.2 = false
         ∧ r3.1.items = ["A", "B"] ∧ r3.1.dropped = 1) := by
  constructor
  · have hnot : ¬ q.items.length < q.capacity := by rw [hfull]; exact lt_irrefl _
    simp [BoundedQueue.enqueue, hnot]
  · decide

/-- C9 witness: a concrete full queue. -/
theorem C9_overflow_drops_witness :
    ((⟨2, ["A", "B"], 0⟩ : BoundedQueue String).enqueue "C").2 = false
    ∧ ((⟨2, ["A", "B"], 0⟩ : BoundedQueue String).enqueue "C").1.items = ["A", "B"]
    ∧ ((⟨2, ["A", "B"], 0⟩ : BoundedQueue String).enqueue "C").1.dropped = 0 + 1 :=
  (C9_overflow_drops ⟨2, ["A", "B"], 0⟩ "C" rfl).1

/-- C10: a span whose attribute dict is absent or empty passes through `export`
untouched (no scan, no audit flag) and is still forwarded to the wrapped
exporter as part of the batch. -/
theorem C10_attrless_span_total (sp : Span)
    (h : sp.attrs = none ∨ sp.attrs = some []) :
    exportSpan sp = sp
    ∧ ∀ (inner : List Span → SpanExportResult) (spans : List Span),
        sp ∈ spans → sp ∈ (exportBatch inner spans).delegated := by
  have hid : exportSpan sp = sp := by
    rcases h with h | h
    · simp [exportSpan, h]
    · simp [exportSpan, h]
  refine ⟨hid, fun inner spans hmem => ?_⟩
  have : exportSpan sp ∈ spans.map exportSpan := List.mem_map_of_mem _ hmem
  rw [hid] at this
  exact this

/-- C1 (amended): for every non-skip string attribute of every span in an
exported batch whose key is not the exporter's own audit key
`"security.async_regex_scrubbed"` (a string stored there is scrubbed but then
overwritten with the boolean `true`; see the C1 counterexample), `export`
replaces the value by its three-pattern substitution; and on the spec's
concrete scenario the result is
`"contact me at [REDACTED PII] or [REDACTED PII]"`, which carries no
email-shaped and no card-number-shaped (13-16 digit) substring. -/
theorem C1_export_scrubs_strings (sp : Span) (m : AttrMap) (key s : String)
    (hattrs : sp.attrs = some m) (hnd : (m.map Prod.fst).Nodup)
    (hmem : (key, AttrValue.str s) ∈ m)
    (hskip : skip_keys.contains key = false)
    (haudit : key ≠ auditKey) :
    attrVal (exportSpan sp) key = some (.str (scrub s))
    ∧ scrub "contact me at a@b.com or 4111-1111-1111-1111"
        = "contact me at [REDACTED PII] or [REDACTED PII]"
    ∧ existsMatch emailPattern none "contact me at [REDACTED PII] or [REDACTED PII]".data
        = false
    ∧ existsMatch cardPattern none "contact me at [REDACTED PII] or [REDACTED PII]".data
        = false := by
  refine ⟨?_, by decide, by decide, by decide⟩
  cases m with
  | nil => simp at hmem
  | cons kv m2 =>
    have hspan : (exportSpan sp).attrs = some
        (if (exportLoop (kv :: m2) (kv :: m2) false).2 then
          setAttr (exportLoop (kv :: m2) (kv :: m2) false).1 auditKey (.bool true)
        else (exportLoop (kv :: m2) (kv :: m2) false).1) := by
      simp [exportSpan, hattrs]
    have hval : lookupA (exportLoop (kv :: m2) (kv :: m2) false).1 key
        = some (.str (scrub s)) := by
      rw [exportLoop_lookup_str (kv :: m2) (kv :: m2) false key s hnd hmem hskip]
      by_cases hc : scrub s = s
      · rw [if_pos hc, lookupA_eq_of_mem _ key _ hnd hmem, hc]
      · rw [if_neg hc]
    simp only [attrVal, hspan, Option.getD_some]
    cases (exportLoop (kv :: m2) (kv :: m2) false).2 with
    | true =>
      rw [if_pos rfl, lookupA_setAttr_ne _ _ _ _ (Ne.symm haudit), hval]
    | false =>
      rw [if_neg Bool.false_ne_true, hval]

/-- C1 witness: the chat span carrying the scenario value. -/
theorem C1_export_scrubs_strings_witness :
    attrVal (exportSpan sampleScrubSpan) "app.context_dump"
      = some (.str (scrub "contact me at a@b.com or 4111-1111-1111-1111"))
    ∧ scrub "contact me at a@b.com or 4111-1111-1111-1111"
        = "contact me at [REDACTED PII] or [REDACTED PII]"
    ∧ existsMatch emailPattern none "contact me at [REDACTED PII] or [REDACTED PII]".data
        = false
    ∧ existsMatch cardPattern none "contact me at [REDACTED PII] or [REDACTED PII]".data
        = false :=
  C1_export_scrubs_strings sampleScrubSpan
    [("app.context_dump", .str "contact me at a@b.com or 4111-1111-1111-1111")]
    "app.context_dump" "contact me at a@b.com or 4111-1111-1111-1111"
    rfl (by decide) (by decide) (by decide) (by decide)

/-- C1 counterexample: a span storing the string `"a@b.com"` under the
exporter's own audit key `"security.async_regex_scrubbed"`. That key is not in
the skip set, so the original claim asserts its exported value is the
marker-substituted string; but after the loop scrubs it, the post-loop flag
write overwrites it with the boolean `true`, so the exported value is not the
three-pattern substitution of the original string. -/
theorem C1_counterexample :
    skip_keys.contains "security.async_regex_scrubbed" = false
    ∧ attrVal cexC1Span "security.async_regex_scrubbed"
        = some (.str "a@b.com")
    ∧ attrVal (exportSpan cexC1Span) "security.async_regex_scrubbed"
        = some (.bool true)
    ∧ attrVal (exportSpan cexC1Span) "security.async_regex_scrubbed"
        ≠ some (.str (scrub "a@b.com")) := by
  refine ⟨by decide, by decide, by decide, by decide⟩

/-- C8 counterexample: a span carrying the non-string value `7` under the
exporter's own audit key `"security.async_regex_scrubbed"`, next to a
scrubbable string attribute. The export overwrites that non-string value with
`true`, so the claim "every non-string attribute value is left unchanged" fails
on this input. -/
theorem C8_counterexample :
    attrVal cexAuditSpan "security.async_regex_scrubbed" = some (.int 7)
    ∧ attrVal (exportSpan cexAuditSpan) "security.async_regex_scrubbed"
        = some (.bool true)
    ∧ attrVal (exportSpan cexAuditSpan) "security.async_regex_scrubbed"
        ≠ attrVal cexAuditSpan "security.async_regex_scrubbed" := by
  refine ⟨by decide, by decide, by decide⟩

/-- C8 (amended): every attribute whose value is not string-typed is left
unchanged by `export`, provided its key is not the exporter's own audit key
`"security.async_regex_scrubbed"` (which `export` may overwrite with `true`
when some other value was scrubbed). -/
theorem C8_nonstring_frame (sp : Span) (m : AttrMap) (key : String) (v : AttrValue)
    (hattrs : sp.attrs = some m) (hnd : (m.map Prod.fst).Nodup)
    (hmem : (key, v) ∈ m) (hnonstr : ∀ s, v ≠ AttrValue.str s)
    (haudit : key ≠ auditKey) :
    attrVal (exportSpan sp) key = some v := by
  cases m with
  | nil => simp at hmem
  | cons kv m2 =>
    have hframe : ∀ s, (key, AttrValue.str s) ∈ (kv :: m2) →
        skip_keys.contains key = true ∨ scrub s = s := by
      intro s hsmem
      have h1 := lookupA_eq_of_mem _ key _ hnd hmem
      have h2 := lookupA_eq_of_mem _ key _ hnd hsmem
      rw [h1] at h2
      exact absurd (Option.some.inj h2) (hnonstr s)
    have hspan : (exportSpan sp).attrs = some
        (if (exportLoop (kv :: m2) (kv :: m2) false).2 then
          setAttr (exportLoop (kv :: m2) (kv :: m2) false).1 auditKey (.bool true)
        else (exportLoop (kv :: m2) (kv :: m2) false).1) := by
      simp [exportSpan, hattrs]
    have hval : lookupA (exportLoop (kv :: m2) (kv :: m2) false).1 key = some v := by
      rw [exportLoop_frame (kv :: m2) (kv :: m2) false key hframe]
      exact lookupA_eq_of_mem _ key _ hnd hmem
    simp only [attrVal, hspan, Option.getD_some]
    cases (exportLoop (kv :: m2) (kv :: m2) false).2 with
    | true =>
      rw [if_pos rfl, lookupA_setAttr_ne _ _ _ _ (Ne.symm haudit), hval]
    | false =>
      rw [if_neg Bool.false_ne_true, hval]

/-- C8 amended witness: the integer payment amount of the payment span (its key
is outside the audit key) survives export unchanged. -/
theorem C8_nonstring_frame_witness :
    attrVal (exportSpan samplePaymentSpan) "payment.amount" = some (.int 250) :=
  C8_nonstring_frame samplePaymentSpan
    [("payment.amount", .int 250), ("user.id", .str "user_100")]
    "payment.amount" (.int 250) rfl (by decide) (by decide)
    (fun s h => nomatch h) (by decide)

/-- C10 witness: the attribute-less span. -/
theorem C10_attrless_span_total_witness :
    exportSpan emptyAttrSpan = emptyAttrSpan
    ∧ emptyAttrSpan ∈
        (exportBatch (fun _ => SpanExportResult.success) [emptyAttrSpan]).delegated :=
  ⟨(C10_attrless_span_total emptyAttrSpan (Or.inl rfl)).1,
    (C10_attrless_span_total emptyAttrSpan (Or.inl rfl)).2
      (fun _ => SpanExportResult.success) [emptyAttrSpan] (List.mem_singleton.mpr rfl)⟩

end OtelDemo
